import Mathlib

/-!
ceta: rational numbers (`rational.hh`)

A shallow embedding of the class template `ceta::rational_t<T>` at `T = ℤ`
(exact integers), together with proofs of its normal-form invariant and of the
arithmetic and comparison operators.

Conventions of the embedding:

* `std::gcd` is the non-negative mathematical gcd.
* The built-in integer division `/` of C++ truncates towards zero and is
  undefined on a zero divisor; it is modelled by `idiv`, which returns `none`
  on a zero divisor.  Every member function that divides therefore returns an
  `Option`, and `some r` means that the function ran to completion without a
  division by zero and left the value `r`.
* A compound operator `a op= b` is modelled as a function from the old value of
  the receiver and the argument (a distinct object) to the new value of the
  receiver.  The self-applications `a op= a`, where the argument aliases the
  receiver, are modelled separately (`add_assign_self` and its siblings).
* `add_assign_with` and its siblings are the same bodies with the integer
  division as a parameter; `mul_assign_wrapped` is `operator *=` on `w`-bit
  machine integers, every result reduced modulo `2^w`.
-/

namespace ceta

/-- The function `std::gcd` of `<numeric>` on exact integers: the non-negative
greatest common divisor of `|m|` and `|n|`, with `gcd 0 0 = 0`. -/
def gcd (m n : Int) : Int := (Int.gcd m n : Int)

/-- Built-in integer division of C++: truncation towards zero, undefined
(here `none`) when the divisor is zero. -/
def idiv (a b : Int) : Option Int :=
  if b = 0 then none else some (a.tdiv b)

/-- Exact integer division: defined only when the divisor is non-zero and
divides the dividend without remainder. -/
def exact_div (a b : Int) : Option Int :=
  if b ≠ 0 ∧ b ∣ a then some (a.tdiv b) else none

/-- Flooring integer division (rounding towards minus infinity), undefined on
a zero divisor. -/
def floor_div (a b : Int) : Option Int :=
  if b = 0 then none else some (a.fdiv b)

/-- The signed `w`-bit range `[-2^(w-1), 2^(w-1))` of a machine integer. -/
def in_range (w : Nat) (x : Int) : Prop :=
  -((2 : Int) ^ (w - 1)) ≤ x ∧ x < (2 : Int) ^ (w - 1)

instance (w : Nat) (x : Int) : Decidable (in_range w x) := by
  unfold in_range
  infer_instance

/-- Arithmetic modulo `2^w`: the representative of `x` in the signed `w`-bit
range (two's complement wrap-around). -/
def wrap (w : Nat) (x : Int) : Int :=
  (x + (2 : Int) ^ (w - 1)) % (2 : Int) ^ w - (2 : Int) ^ (w - 1)

/-- Integer division on `w`-bit machine integers: `idiv` with the quotient
reduced modulo `2^w`. -/
def idiv_wrapped (w : Nat) (a b : Int) : Option Int :=
  (idiv a b).map (wrap w)

/-- The class `rational_t<T>` with its two data members, at `T = ℤ`. -/
structure rational_t where
  num : Int
  denom : Int
deriving DecidableEq

namespace rational_t

/-- The member function `normalize()`: the receiver before the call is `self`,
the result is the receiver after the call. -/
def normalize (self : rational_t) : Option rational_t :=
  if self.num = 0 then
    some ⟨self.num, 1⟩
  else do
    let gcd_nd := gcd self.num self.denom
    let num ← idiv self.num gcd_nd
    let denom ← idiv self.denom gcd_nd
    if denom < 0 then
      some ⟨-num, -denom⟩
    else
      some ⟨num, denom⟩

/-- The constructor `rational_t(T num = 0)`, applied to an explicit argument. -/
def of_num (num : Int) : rational_t := ⟨num, 1⟩

/-- The constructor `rational_t(T num, T denom)`: stores both members and
calls `normalize()`. -/
def of_num_denom (num denom : Int) : Option rational_t :=
  normalize ⟨num, denom⟩

/-- The member `operator ==`. -/
def eq (self other : rational_t) : Bool :=
  decide (self.num = other.num) && decide (self.denom = other.denom)

/-- The member `operator +=` (argument distinct from the receiver). -/
def add_assign (self other : rational_t) : Option rational_t := do
  let gcd_d := gcd self.denom other.denom
  let denom ← idiv self.denom gcd_d
  let q ← idiv other.denom gcd_d
  let num := self.num * q + other.num * denom
  let gcd_d := gcd num gcd_d
  let num ← idiv num gcd_d
  let q ← idiv other.denom gcd_d
  some ⟨num, denom * q⟩

/-- The member `operator -=` (argument distinct from the receiver). -/
def sub_assign (self other : rational_t) : Option rational_t := do
  let gcd_d := gcd self.denom other.denom
  let denom ← idiv self.denom gcd_d
  let q ← idiv other.denom gcd_d
  let num := self.num * q - other.num * denom
  let gcd_d := gcd num gcd_d
  let num ← idiv num gcd_d
  let q ← idiv other.denom gcd_d
  some ⟨num, denom * q⟩

/-- The member `operator *=` (argument distinct from the receiver). -/
def mul_assign (self other : rational_t) : Option rational_t := do
  let gcd1 := gcd self.num other.denom
  let gcd2 := gcd other.num self.denom
  let n1 ← idiv self.num gcd1
  let n2 ← idiv other.num gcd2
  let d1 ← idiv self.denom gcd2
  let d2 ← idiv other.denom gcd1
  some ⟨n1 * n2, d1 * d2⟩

/-- The member `operator /=` (argument distinct from the receiver). -/
def div_assign (self other : rational_t) : Option rational_t :=
  if self.num = 0 then
    some self
  else do
    let gcd_n := gcd self.num other.num
    let gcd_d := gcd self.denom other.denom
    let n1 ← idiv self.num gcd_n
    let n2 ← idiv other.denom gcd_d
    let d1 ← idiv self.denom gcd_d
    let d2 ← idiv other.num gcd_n
    let num := n1 * n2
    let denom := d1 * d2
    if denom < 0 then
      some ⟨-num, -denom⟩
    else
      some ⟨num, denom⟩

/-- The unary member `operator -`: builds `rational_t(-num, denom)` with the
normalising two-argument constructor. -/
def neg (self : rational_t) : Option rational_t :=
  of_num_denom (-self.num) self.denom

/-- The binary member `operator +`: copy the receiver, then `+=`. -/
def add (self other : rational_t) : Option rational_t :=
  let res := self
  add_assign res other

/-- The binary member `operator -`: copy the receiver, then `-=`. -/
def sub (self other : rational_t) : Option rational_t :=
  let res := self
  sub_assign res other

/-- The binary member `operator *`: copy the receiver, then `*=`. -/
def mul (self other : rational_t) : Option rational_t :=
  let res := self
  mul_assign res other

/-- The binary member `operator /`: copy the receiver, then `/=`. -/
def div (self other : rational_t) : Option rational_t :=
  let res := self
  div_assign res other

/-- The member `operator <`. -/
def lt (self other : rational_t) : Bool :=
  decide (self.num * other.denom < other.num * self.denom)

/-- The member `numerator()`. -/
def numerator (self : rational_t) : Int := self.num

/-- The member `denominator()`. -/
def denominator (self : rational_t) : Int := self.denom

/-- The normal form of the data model: the denominator is positive and the
fraction is in lowest terms, `gcd(|numerator|, denominator) = 1`.  The zero
value in normal form is exactly `0/1`. -/
def normal_form (r : rational_t) : Prop :=
  0 < r.denom ∧ gcd |r.num| r.denom = 1

instance (r : rational_t) : Decidable (normal_form r) := by
  unfold normal_form
  infer_instance

/-- The body of `normalize()` with the integer division `/` as a parameter
`dv`; `normalize_with idiv` is `normalize`. -/
def normalize_with (dv : Int → Int → Option Int) (self : rational_t) : Option rational_t :=
  if self.num = 0 then
    some ⟨self.num, 1⟩
  else do
    let gcd_nd := gcd self.num self.denom
    let num ← dv self.num gcd_nd
    let denom ← dv self.denom gcd_nd
    if denom < 0 then
      some ⟨-num, -denom⟩
    else
      some ⟨num, denom⟩

/-- The body of `operator +=` with the integer division as a parameter. -/
def add_assign_with (dv : Int → Int → Option Int) (self other : rational_t) :
    Option rational_t := do
  let gcd_d := gcd self.denom other.denom
  let denom ← dv self.denom gcd_d
  let q ← dv other.denom gcd_d
  let num := self.num * q + other.num * denom
  let gcd_d := gcd num gcd_d
  let num ← dv num gcd_d
  let q ← dv other.denom gcd_d
  some ⟨num, denom * q⟩

/-- The body of `operator -=` with the integer division as a parameter. -/
def sub_assign_with (dv : Int → Int → Option Int) (self other : rational_t) :
    Option rational_t := do
  let gcd_d := gcd self.denom other.denom
  let denom ← dv self.denom gcd_d
  let q ← dv other.denom gcd_d
  let num := self.num * q - other.num * denom
  let gcd_d := gcd num gcd_d
  let num ← dv num gcd_d
  let q ← dv other.denom gcd_d
  some ⟨num, denom * q⟩

/-- The body of `operator *=` with the integer division as a parameter. -/
def mul_assign_with (dv : Int → Int → Option Int) (self other : rational_t) :
    Option rational_t := do
  let gcd1 := gcd self.num other.denom
  let gcd2 := gcd other.num self.denom
  let n1 ← dv self.num gcd1
  let n2 ← dv other.num gcd2
  let d1 ← dv self.denom gcd2
  let d2 ← dv other.denom gcd1
  some ⟨n1 * n2, d1 * d2⟩

/-- The unary `operator -` with the integer division as a parameter: the
constructor call `rational_t(-num, denom)` runs `normalize()`. -/
def neg_with (dv : Int → Int → Option Int) (self : rational_t) : Option rational_t :=
  normalize_with dv ⟨-self.num, self.denom⟩

/-- The member `operator +=` under self-application `a += a`: the argument
`other` is the receiver itself, so `other.num` and `other.denom` read the
current members, including the `denom` already divided by the first gcd. -/
def add_assign_self (self : rational_t) : Option rational_t := do
  let gcd_d := gcd self.denom self.denom
  let denom ← idiv self.denom gcd_d
  let q ← idiv denom gcd_d
  let num := self.num * q + self.num * denom
  let gcd_d := gcd num gcd_d
  let num ← idiv num gcd_d
  let q ← idiv denom gcd_d
  some ⟨num, denom * q⟩

/-- The member `operator -=` under self-application `a -= a`. -/
def sub_assign_self (self : rational_t) : Option rational_t := do
  let gcd_d := gcd self.denom self.denom
  let denom ← idiv self.denom gcd_d
  let q ← idiv denom gcd_d
  let num := self.num * q - self.num * denom
  let gcd_d := gcd num gcd_d
  let num ← idiv num gcd_d
  let q ← idiv denom gcd_d
  some ⟨num, denom * q⟩

/-- The member `operator *=` under self-application `a *= a`: both gcds and the
new `num` are computed from the old members, and the new `denom` reads only
`denom` and `other.denom`, which are still the old denominator. -/
def mul_assign_self (self : rational_t) : Option rational_t := do
  let gcd1 := gcd self.num self.denom
  let gcd2 := gcd self.num self.denom
  let n1 ← idiv self.num gcd1
  let n2 ← idiv self.num gcd2
  let num := n1 * n2
  let d1 ← idiv self.denom gcd2
  let d2 ← idiv self.denom gcd1
  some ⟨num, d1 * d2⟩

/-- The member `operator /=` under self-application `a /= a`: the new `denom`
reads `other.num` after `num` has been assigned. -/
def div_assign_self (self : rational_t) : Option rational_t :=
  if self.num = 0 then
    some self
  else do
    let gcd_n := gcd self.num self.num
    let gcd_d := gcd self.denom self.denom
    let n1 ← idiv self.num gcd_n
    let n2 ← idiv self.denom gcd_d
    let num := n1 * n2
    let d1 ← idiv self.denom gcd_d
    let d2 ← idiv num gcd_n
    let denom := d1 * d2
    if denom < 0 then
      some ⟨-num, -denom⟩
    else
      some ⟨num, denom⟩

/-- The integers computed while `operator *=` runs, in the order of the
source: the two gcds, the four quotients and the two products. -/
def mul_assign_values (self other : rational_t) : Option (List Int) := do
  let gcd1 := gcd self.num other.denom
  let gcd2 := gcd other.num self.denom
  let n1 ← idiv self.num gcd1
  let n2 ← idiv other.num gcd2
  let d1 ← idiv self.denom gcd2
  let d2 ← idiv other.denom gcd1
  some [gcd1, gcd2, n1, n2, d1, d2, n1 * n2, d1 * d2]

/-- The member `operator *=` on `w`-bit machine integers: every gcd, quotient
and product is reduced modulo `2^w` into the signed range. -/
def mul_assign_wrapped (w : Nat) (self other : rational_t) : Option rational_t := do
  let gcd1 := wrap w (gcd self.num other.denom)
  let gcd2 := wrap w (gcd other.num self.denom)
  let n1 ← idiv_wrapped w self.num gcd1
  let n2 ← idiv_wrapped w other.num gcd2
  let d1 ← idiv_wrapped w self.denom gcd2
  let d2 ← idiv_wrapped w other.denom gcd1
  some ⟨wrap w (n1 * n2), wrap w (d1 * d2)⟩

/-- The rational number that a value stands for, `num / denom` in `ℚ`
(the abstraction function used in the proofs). -/
def value (r : rational_t) : ℚ := (r.num : ℚ) / (r.denom : ℚ)

end rational_t

/-! Arithmetic helper lemmas -/

theorem idiv_mul_left {g : Int} (hg : g ≠ 0) (q : Int) : idiv (g * q) g = some q := by
  simp [idiv, hg, Int.mul_tdiv_cancel_left]

theorem gcd_abs_left (m n : Int) : gcd |m| n = gcd m n := by
  simp [gcd, Int.gcd, Int.natAbs_abs]

theorem gcd_eq_one_iff (m n : Int) : gcd m n = 1 ↔ IsCoprime m n := by
  unfold gcd
  rw [Int.isCoprime_iff_gcd_eq_one]
  exact_mod_cast Iff.rfl

theorem exact_div_mul_left (g q : Int) (hg : g ≠ 0) : exact_div (g * q) g = some q := by
  simp [exact_div, hg, Int.mul_tdiv_cancel_left]

theorem floor_div_mul_left (g q : Int) (hg : g ≠ 0) : floor_div (g * q) g = some q := by
  simp [floor_div, hg, Int.mul_fdiv_cancel_left]

theorem gcd_zero_right_eq_abs (n : Int) : gcd n 0 = |n| := by
  unfold gcd
  rw [Int.gcd_zero_right, Int.abs_eq_natAbs]

theorem gcd_one_right_eq_one (d : Int) : gcd d 1 = 1 := by
  unfold gcd
  simp

/-- Dividing a non-zero integer by its absolute value gives its sign. -/
theorem idiv_abs_self {n : Int} (hn : n ≠ 0) : idiv n |n| = some (Int.sign n) := by
  have h0 : |n| ≠ 0 := abs_ne_zero.mpr hn
  have h := idiv_mul_left h0 (Int.sign n)
  rwa [mul_comm, Int.sign_mul_abs] at h

theorem idiv_zero_left {g : Int} (hg : g ≠ 0) : idiv 0 g = some 0 := by
  have h := idiv_mul_left hg 0
  rwa [mul_zero] at h

theorem idiv_one_right (d : Int) : idiv d 1 = some d := by
  have h := idiv_mul_left (one_ne_zero : (1 : Int) ≠ 0) d
  rwa [one_mul] at h

theorem sign_eq_one_or_neg_one {n : Int} (hn : n ≠ 0) : Int.sign n = 1 ∨ Int.sign n = -1 := by
  rcases lt_or_gt_of_ne hn with h | h
  · exact Or.inr (Int.sign_eq_neg_one_of_neg h)
  · exact Or.inl (Int.sign_eq_one_of_pos h)

/-- Wrap-around is the identity on the signed `w`-bit range. -/
theorem wrap_eq_self {w : Nat} (hw : 1 ≤ w) {x : Int} (hx : in_range w x) : wrap w x = x := by
  obtain ⟨k, rfl⟩ : ∃ k, w = k + 1 := ⟨w - 1, by omega⟩
  unfold in_range at hx
  unfold wrap
  simp only [Nat.add_sub_cancel] at hx ⊢
  have h2 : (2 : Int) ^ (k + 1) = 2 * (2 : Int) ^ k := by ring
  have hmod : (x + (2 : Int) ^ k) % (2 : Int) ^ (k + 1) = x + (2 : Int) ^ k := by
    apply Int.emod_eq_of_lt
    · omega
    · omega
  rw [hmod]
  ring

/-- A positive factor is at most the positive product. -/
theorem le_mul_of_pos_factors {g q : Int} (hg : 0 < g) (hq : 0 < q) : g ≤ g * q :=
  le_mul_of_one_le_right (le_of_lt hg) hq

/-- Dividing by a positive factor does not increase the absolute value. -/
theorem abs_le_abs_mul_of_pos {g : Int} (hg : 0 < g) (q : Int) : |q| ≤ |g * q| := by
  rw [abs_mul, abs_of_pos hg]
  exact le_mul_of_one_le_left (abs_nonneg q) hg

/-- Dividing by a positive factor stays in the signed `w`-bit range. -/
theorem in_range_of_mul {w : Nat} {g q : Int} (hg : 0 < g) (h : in_range w (g * q)) :
    in_range w q := by
  unfold in_range at h ⊢
  have hp : (0 : Int) < (2 : Int) ^ (w - 1) := by positivity
  rcases le_or_lt 0 q with hq | hq
  · have : q ≤ g * q := le_mul_of_one_le_left hq hg
    constructor <;> omega
  · have : g * q ≤ q := by nlinarith
    constructor <;> omega

/-- Splitting off the gcd: unless both arguments are zero, `gcd a b` is
positive, and the two cofactors are coprime. -/
theorem gcd_decomp (a b : Int) (h : a ≠ 0 ∨ b ≠ 0) :
    ∃ g a' b' : Int, gcd a b = g ∧ 0 < g ∧ a = g * a' ∧ b = g * b' ∧ IsCoprime a' b' := by
  have hpos : 0 < Int.gcd a b := Int.gcd_pos_iff.mpr h
  refine ⟨gcd a b, a / (Int.gcd a b : Int), b / (Int.gcd a b : Int), rfl, ?_, ?_, ?_, ?_⟩
  · unfold gcd
    exact_mod_cast hpos
  · unfold gcd
    exact (Int.mul_ediv_cancel' Int.gcd_dvd_left).symm
  · unfold gcd
    exact (Int.mul_ediv_cancel' Int.gcd_dvd_right).symm
  · rw [Int.isCoprime_iff_gcd_eq_one]
    exact Int.gcd_div_gcd_div_gcd hpos

theorem pos_of_mul_pos_left {g x : Int} (h : 0 < g * x) (hg : 0 < g) : 0 < x := by
  by_contra hx
  have hx' : x ≤ 0 := not_lt.mp hx
  have : g * x ≤ 0 := mul_nonpos_of_nonneg_of_nonpos (le_of_lt hg) hx'
  omega

/-- A positive integer coprime to zero is one. -/
theorem isCoprime_zero_left_pos {d : Int} (h : IsCoprime (0 : Int) d) (hd : 0 < d) : d = 1 := by
  have hu : IsUnit d := isCoprime_zero_left.mp h
  rcases Int.isUnit_iff.mp hu with h1 | h1
  · exact h1
  · omega

namespace rational_t

theorem normal_form_iff (r : rational_t) :
    normal_form r ↔ 0 < r.denom ∧ IsCoprime r.num r.denom := by
  unfold normal_form
  rw [gcd_abs_left, gcd_eq_one_iff]

/-- Two values in normal form that represent the same rational number have the
same fields. -/
theorem normal_form_unique {a b : rational_t} (ha : normal_form a) (hb : normal_form b)
    (h : a.num * b.denom = b.num * a.denom) : a = b := by
  rw [normal_form_iff] at ha hb
  obtain ⟨ha0, hac⟩ := ha
  obtain ⟨hb0, hbc⟩ := hb
  have h1 : a.denom ∣ b.denom := by
    apply hac.symm.dvd_of_dvd_mul_left
    rw [h]
    exact Dvd.intro_left _ rfl
  have h2 : b.denom ∣ a.denom := by
    apply hbc.symm.dvd_of_dvd_mul_left
    rw [← h]
    exact Dvd.intro_left _ rfl
  have hd : a.denom = b.denom :=
    Int.le_antisymm (Int.le_of_dvd hb0 h1) (Int.le_of_dvd ha0 h2)
  have hn : a.num = b.num := by
    rw [hd] at h
    exact Int.eq_of_mul_eq_mul_right (ne_of_gt hb0) h
  cases a
  cases b
  simp_all

/-- What `normalize()` does on a non-zero denominator: it completes, the
result is in normal form, and it represents the same rational number. -/
theorem normalize_spec (n d : Int) (hd : d ≠ 0) :
    ∃ r, normalize ⟨n, d⟩ = some r ∧ normal_form r ∧ r.num * d = n * r.denom := by
  by_cases hn : n = 0
  · subst hn
    refine ⟨⟨0, 1⟩, by simp [normalize], by decide, by simp⟩
  · obtain ⟨g, n', d', hgd, hg, hn', hd', hco⟩ := gcd_decomp n d (Or.inl hn)
    have hg0 : g ≠ 0 := ne_of_gt hg
    have e1 : idiv n g = some n' := by
      rw [hn']
      exact idiv_mul_left hg0 n'
    have e2 : idiv d g = some d' := by
      rw [hd']
      exact idiv_mul_left hg0 d'
    have hd0 : d' ≠ 0 := by
      rintro rfl
      apply hd
      rw [hd']
      simp
    by_cases hneg : d' < 0
    · refine ⟨⟨-n', -d'⟩, ?_, ?_, ?_⟩
      · simp [normalize, hn, hgd, e1, e2, hneg]
      · rw [normal_form_iff]
        exact ⟨by simpa using hneg, hco.neg_neg⟩
      · show -n' * d = n * -d'
        rw [hn', hd']
        ring
    · refine ⟨⟨n', d'⟩, ?_, ?_, ?_⟩
      · simp [normalize, hn, hgd, e1, e2, hneg]
      · rw [normal_form_iff]
        exact ⟨by show 0 < d'; omega, hco⟩
      · show n' * d = n * d'
        rw [hn', hd']
        ring

/-- What `operator +=` does on operands in normal form: it completes, the
result is in normal form, and it represents the sum of the two fractions. -/
theorem add_assign_spec {a b : rational_t} (ha : normal_form a) (hb : normal_form b) :
    ∃ r, add_assign a b = some r ∧ normal_form r ∧
      r.num * (a.denom * b.denom) = (a.num * b.denom + b.num * a.denom) * r.denom := by
  obtain ⟨n1, d1⟩ := a
  obtain ⟨n2, d2⟩ := b
  rw [normal_form_iff] at ha hb
  obtain ⟨hd1, hc1⟩ := ha
  obtain ⟨hd2, hc2⟩ := hb
  simp only at hd1 hc1 hd2 hc2
  obtain ⟨g, d1', d2', hgd, hg, e1, e2, hco⟩ := gcd_decomp d1 d2 (Or.inl (ne_of_gt hd1))
  have hg0 : g ≠ 0 := ne_of_gt hg
  obtain ⟨g2, t', g', hgt, hg2, et, eg, hco2⟩ :=
    gcd_decomp (n1 * d2' + n2 * d1') g (Or.inr hg0)
  have hg20 : g2 ≠ 0 := ne_of_gt hg2
  have hd1' : 0 < d1' := by
    rw [e1] at hd1
    exact pos_of_mul_pos_left hd1 hg
  have hd2' : 0 < d2' := by
    rw [e2] at hd2
    exact pos_of_mul_pos_left hd2 hg
  have hg' : 0 < g' := by
    rw [eg] at hg
    exact pos_of_mul_pos_left hg hg2
  have i1 : idiv d1 g = some d1' := by
    rw [e1]
    exact idiv_mul_left hg0 d1'
  have i2 : idiv d2 g = some d2' := by
    rw [e2]
    exact idiv_mul_left hg0 d2'
  have i3 : idiv (n1 * d2' + n2 * d1') g2 = some t' := by
    rw [et]
    exact idiv_mul_left hg20 t'
  have i4 : idiv d2 g2 = some (g' * d2') := by
    rw [e2, eg, mul_assoc]
    exact idiv_mul_left hg20 (g' * d2')
  refine ⟨⟨t', d1' * (g' * d2')⟩, ?_, ?_, ?_⟩
  · simp [add_assign, hgd, i1, i2, hgt, i3, i4]
  · rw [normal_form_iff]
    refine ⟨by positivity, ?_⟩
    have c1 : IsCoprime n1 d1' := by
      rw [e1] at hc1
      exact hc1.of_mul_right_right
    have c2 : IsCoprime n2 d2' := by
      rw [e2] at hc2
      exact hc2.of_mul_right_right
    have ct1 : IsCoprime (n1 * d2' + n2 * d1') d1' := by
      have h := (c1.mul_left hco.symm).add_mul_left_left n2
      rwa [mul_comm d1' n2] at h
    have ct2 : IsCoprime (n1 * d2' + n2 * d1') d2' := by
      have h := (c2.mul_left hco).add_mul_left_left n1
      rwa [mul_comm d2' n1, add_comm] at h
    rw [et] at ct1 ct2
    exact (ct1.of_mul_left_right).mul_right (hco2.mul_right ct2.of_mul_left_right)
  · show t' * (d1 * d2) = (n1 * d2 + n2 * d1) * (d1' * (g' * d2'))
    have key : n1 * d2 + n2 * d1 = g * (g2 * t') := by
      rw [← et, e1, e2]
      ring
    rw [key]
    rw [e1, e2]
    rw [eg]
    ring

/-- The operator `-=` is `+=` applied to the argument with its numerator
negated (the two bodies differ only in the sign of one product). -/
theorem sub_assign_eq_add_assign (a b : rational_t) :
    sub_assign a b = add_assign a ⟨-b.num, b.denom⟩ := by
  simp only [sub_assign, add_assign, sub_eq_add_neg, neg_mul]

theorem normal_form_neg_num {b : rational_t} (hb : normal_form b) :
    normal_form ⟨-b.num, b.denom⟩ := by
  rw [normal_form_iff] at hb ⊢
  exact ⟨hb.1, hb.2.neg_left⟩

/-- What `operator -=` does on operands in normal form. -/
theorem sub_assign_spec {a b : rational_t} (ha : normal_form a) (hb : normal_form b) :
    ∃ r, sub_assign a b = some r ∧ normal_form r ∧
      r.num * (a.denom * b.denom) = (a.num * b.denom - b.num * a.denom) * r.denom := by
  obtain ⟨r, h1, h2, h3⟩ := add_assign_spec ha (normal_form_neg_num hb)
  refine ⟨r, by rw [sub_assign_eq_add_assign]; exact h1, h2, ?_⟩
  simp only at h3
  rw [h3]
  ring

/-- What `operator *=` does on operands in normal form: it completes, the
result is in normal form, and it represents the product of the two fractions. -/
theorem mul_assign_spec {a b : rational_t} (ha : normal_form a) (hb : normal_form b) :
    ∃ r, mul_assign a b = some r ∧ normal_form r ∧
      r.num * (a.denom * b.denom) = (a.num * b.num) * r.denom := by
  obtain ⟨n1, d1⟩ := a
  obtain ⟨n2, d2⟩ := b
  rw [normal_form_iff] at ha hb
  obtain ⟨hd1, hc1⟩ := ha
  obtain ⟨hd2, hc2⟩ := hb
  simp only at hd1 hc1 hd2 hc2
  obtain ⟨g1, n1', d2', hg1e, hg1, e1, e2, hco1⟩ := gcd_decomp n1 d2 (Or.inr (ne_of_gt hd2))
  obtain ⟨g2, n2', d1', hg2e, hg2, e3, e4, hco2⟩ := gcd_decomp n2 d1 (Or.inr (ne_of_gt hd1))
  have hg10 : g1 ≠ 0 := ne_of_gt hg1
  have hg20 : g2 ≠ 0 := ne_of_gt hg2
  have hd1' : 0 < d1' := by
    rw [e4] at hd1
    exact pos_of_mul_pos_left hd1 hg2
  have hd2' : 0 < d2' := by
    rw [e2] at hd2
    exact pos_of_mul_pos_left hd2 hg1
  have i1 : idiv n1 g1 = some n1' := by
    rw [e1]
    exact idiv_mul_left hg10 n1'
  have i2 : idiv n2 g2 = some n2' := by
    rw [e3]
    exact idiv_mul_left hg20 n2'
  have i3 : idiv d1 g2 = some d1' := by
    rw [e4]
    exact idiv_mul_left hg20 d1'
  have i4 : idiv d2 g1 = some d2' := by
    rw [e2]
    exact idiv_mul_left hg10 d2'
  refine ⟨⟨n1' * n2', d1' * d2'⟩, ?_, ?_, ?_⟩
  · simp [mul_assign, hg1e, hg2e, i1, i2, i3, i4]
  · rw [normal_form_iff]
    refine ⟨by positivity, ?_⟩
    have c11 : IsCoprime n1' d1' := by
      rw [e1, e4] at hc1
      exact hc1.of_mul_left_right.of_mul_right_right
    have c22 : IsCoprime n2' d2' := by
      rw [e3, e2] at hc2
      exact hc2.of_mul_left_right.of_mul_right_right
    exact (c11.mul_right hco1).mul_left (hco2.mul_right c22)
  · show n1' * n2' * (d1 * d2) = n1 * n2 * (d1' * d2')
    rw [e1, e2, e3, e4]
    ring

/-- What `operator /=` does on operands in normal form when the divisor is not
zero: it completes, the result is in normal form, and it represents the
quotient of the two fractions. -/
theorem div_assign_spec {a b : rational_t} (ha : normal_form a) (hb : normal_form b)
    (hb0 : b.num ≠ 0) :
    ∃ r, div_assign a b = some r ∧ normal_form r ∧
      r.num * (a.denom * b.num) = (a.num * b.denom) * r.denom := by
  by_cases hn1 : a.num = 0
  · exact ⟨a, by simp [div_assign, hn1], ha, by rw [hn1]; ring⟩
  obtain ⟨n1, d1⟩ := a
  obtain ⟨n2, d2⟩ := b
  rw [normal_form_iff] at ha hb
  obtain ⟨hd1, hc1⟩ := ha
  obtain ⟨hd2, hc2⟩ := hb
  simp only at hd1 hc1 hd2 hc2 hb0 hn1
  obtain ⟨gn, n1', n2', hgne, hgn, e1, e2, hcon⟩ := gcd_decomp n1 n2 (Or.inl hn1)
  obtain ⟨gd, d1', d2', hgde, hgd, e3, e4, hcod⟩ := gcd_decomp d1 d2 (Or.inl (ne_of_gt hd1))
  have hgn0 : gn ≠ 0 := ne_of_gt hgn
  have hgd0 : gd ≠ 0 := ne_of_gt hgd
  have hd1' : 0 < d1' := by
    rw [e3] at hd1
    exact pos_of_mul_pos_left hd1 hgd
  have hd2' : 0 < d2' := by
    rw [e4] at hd2
    exact pos_of_mul_pos_left hd2 hgd
  have hn2' : n2' ≠ 0 := by
    rintro rfl
    apply hb0
    rw [e2]
    simp
  have i1 : idiv n1 gn = some n1' := by
    rw [e1]
    exact idiv_mul_left hgn0 n1'
  have i2 : idiv d2 gd = some d2' := by
    rw [e4]
    exact idiv_mul_left hgd0 d2'
  have i3 : idiv d1 gd = some d1' := by
    rw [e3]
    exact idiv_mul_left hgd0 d1'
  have i4 : idiv n2 gn = some n2' := by
    rw [e2]
    exact idiv_mul_left hgn0 n2'
  have c11 : IsCoprime n1' d1' := by
    rw [e1, e3] at hc1
    exact hc1.of_mul_left_right.of_mul_right_right
  have c22 : IsCoprime n2' d2' := by
    rw [e2, e4] at hc2
    exact hc2.of_mul_left_right.of_mul_right_right
  have hco : IsCoprime (n1' * d2') (d1' * n2') :=
    (c11.mul_right hcon).mul_left (hcod.symm.mul_right c22.symm)
  by_cases hneg : d1' * n2' < 0
  · refine ⟨⟨-(n1' * d2'), -(d1' * n2')⟩, ?_, ?_, ?_⟩
    · simp [div_assign, hn1, hgne, hgde, i1, i2, i3, i4, hneg]
    · rw [normal_form_iff]
      exact ⟨by show 0 < -(d1' * n2'); omega, hco.neg_neg⟩
    · show -(n1' * d2') * (d1 * n2) = n1 * d2 * -(d1' * n2')
      rw [e1, e2, e3, e4]
      ring
  · refine ⟨⟨n1' * d2', d1' * n2'⟩, ?_, ?_, ?_⟩
    · simp [div_assign, hn1, hgne, hgde, i1, i2, i3, i4, hneg]
    · rw [normal_form_iff]
      refine ⟨?_, hco⟩
      show 0 < d1' * n2'
      have : d1' * n2' ≠ 0 := mul_ne_zero (ne_of_gt hd1') hn2'
      omega
    · show n1' * d2' * (d1 * n2) = n1 * d2 * (d1' * n2')
      rw [e1, e2, e3, e4]
      ring

/-- The zero value in normal form is exactly `0/1`. -/
theorem normal_form_zero {r : rational_t} (hr : normal_form r) (h0 : r.num = 0) :
    r = ⟨0, 1⟩ := by
  rw [normal_form_iff] at hr
  obtain ⟨n, d⟩ := r
  simp only at h0 hr
  subst h0
  rw [isCoprime_zero_left_pos hr.2 hr.1]

theorem eq_iff (a b : rational_t) : eq a b = true ↔ a = b := by
  obtain ⟨n1, d1⟩ := a
  obtain ⟨n2, d2⟩ := b
  simp [eq]

theorem eq_false_iff (a b : rational_t) : eq a b = false ↔ a ≠ b := by
  rw [Ne, ← eq_iff a b]
  simp

/-- Cross-multiplied equality is the same for two fractions and for any two
fractions representing the same numbers. -/
theorem cross_eq_iff {a b : rational_t} {n1 d1 n2 d2 : Int}
    (hd1 : d1 ≠ 0) (hd2 : d2 ≠ 0) (ha0 : a.denom ≠ 0) (hb0 : b.denom ≠ 0)
    (ha : a.num * d1 = n1 * a.denom) (hb : b.num * d2 = n2 * b.denom) :
    a.num * b.denom = b.num * a.denom ↔ n1 * d2 = n2 * d1 := by
  constructor
  · intro h
    have h3 : (n1 * d2) * (a.denom * b.denom) = (n2 * d1) * (a.denom * b.denom) := by
      calc (n1 * d2) * (a.denom * b.denom)
          = (n1 * a.denom) * (d2 * b.denom) := by ring
        _ = (a.num * d1) * (d2 * b.denom) := by rw [ha]
        _ = (a.num * b.denom) * (d1 * d2) := by ring
        _ = (b.num * a.denom) * (d1 * d2) := by rw [h]
        _ = (b.num * d2) * (d1 * a.denom) := by ring
        _ = (n2 * b.denom) * (d1 * a.denom) := by rw [hb]
        _ = (n2 * d1) * (a.denom * b.denom) := by ring
    exact Int.eq_of_mul_eq_mul_right (mul_ne_zero ha0 hb0) h3
  · intro h
    have h3 : (a.num * b.denom) * (d1 * d2) = (b.num * a.denom) * (d1 * d2) := by
      calc (a.num * b.denom) * (d1 * d2)
          = (a.num * d1) * (d2 * b.denom) := by ring
        _ = (n1 * a.denom) * (d2 * b.denom) := by rw [ha]
        _ = (n1 * d2) * (a.denom * b.denom) := by ring
        _ = (n2 * d1) * (a.denom * b.denom) := by rw [h]
        _ = (n2 * b.denom) * (d1 * a.denom) := by ring
        _ = (b.num * d2) * (d1 * a.denom) := by rw [hb]
        _ = (b.num * a.denom) * (d1 * d2) := by ring
    exact Int.eq_of_mul_eq_mul_right (mul_ne_zero hd1 hd2) h3

/-- A value in normal form that represents `n/d` is what the two-argument
constructor builds from `n` and `d`. -/
theorem of_num_denom_eq_of_repr {r : rational_t} {n d : Int} (hr : normal_form r)
    (hd : d ≠ 0) (h : r.num * d = n * r.denom) : of_num_denom n d = some r := by
  obtain ⟨s, hs, hsn, hsv⟩ := normalize_spec n d hd
  have hr0 : r.denom ≠ 0 := ne_of_gt hr.1
  have hs0 : s.denom ≠ 0 := ne_of_gt hsn.1
  have hrs : r = s :=
    normal_form_unique hr hsn ((cross_eq_iff hd hd hr0 hs0 h hsv).mpr rfl)
  rw [hrs]
  exact hs

/-- Unary minus on a value in normal form: the normalising constructor leaves
`(-num, denom)` as it is. -/
theorem neg_spec {a : rational_t} (ha : normal_form a) :
    neg a = some ⟨-a.num, a.denom⟩ :=
  of_num_denom_eq_of_repr (normal_form_neg_num ha) (ne_of_gt ha.1) rfl

/-- Two values in normal form that stand for the same rational number are
equal field for field. -/
theorem eq_of_value_eq {a b : rational_t} (ha : normal_form a) (hb : normal_form b)
    (h : value a = value b) : a = b := by
  apply normal_form_unique ha hb
  have hda : (a.denom : ℚ) ≠ 0 := by exact_mod_cast ne_of_gt ha.1
  have hdb : (b.denom : ℚ) ≠ 0 := by exact_mod_cast ne_of_gt hb.1
  unfold value at h
  rw [div_eq_div_iff hda hdb] at h
  exact_mod_cast h

/-- Reading a cross-multiplied integer identity as an identity in `ℚ`. -/
theorem value_eq_div_of_repr {r : rational_t} {n d : Int} (hr : r.denom ≠ 0) (hd : d ≠ 0)
    (h : r.num * d = n * r.denom) : value r = (n : ℚ) / (d : ℚ) := by
  have hrq : (r.denom : ℚ) ≠ 0 := by exact_mod_cast hr
  have hdq : (d : ℚ) ≠ 0 := by exact_mod_cast hd
  unfold value
  rw [div_eq_div_iff hrq hdq]
  exact_mod_cast h

/-- The operator `+`, read in `ℚ`. -/
theorem add_value {a b : rational_t} (ha : normal_form a) (hb : normal_form b) :
    ∃ r, add a b = some r ∧ normal_form r ∧ value r = value a + value b := by
  obtain ⟨r, hr, hn, hv⟩ := add_assign_spec ha hb
  have hda : (a.denom : ℚ) ≠ 0 := by exact_mod_cast ne_of_gt ha.1
  have hdb : (b.denom : ℚ) ≠ 0 := by exact_mod_cast ne_of_gt hb.1
  refine ⟨r, hr, hn, ?_⟩
  rw [value_eq_div_of_repr (ne_of_gt hn.1)
    (mul_ne_zero (ne_of_gt ha.1) (ne_of_gt hb.1)) hv]
  unfold value
  push_cast
  field_simp

/-- The operator `*`, read in `ℚ`. -/
theorem mul_value {a b : rational_t} (ha : normal_form a) (hb : normal_form b) :
    ∃ r, mul a b = some r ∧ normal_form r ∧ value r = value a * value b := by
  obtain ⟨r, hr, hn, hv⟩ := mul_assign_spec ha hb
  have hda : (a.denom : ℚ) ≠ 0 := by exact_mod_cast ne_of_gt ha.1
  have hdb : (b.denom : ℚ) ≠ 0 := by exact_mod_cast ne_of_gt hb.1
  refine ⟨r, hr, hn, ?_⟩
  rw [value_eq_div_of_repr (ne_of_gt hn.1)
    (mul_ne_zero (ne_of_gt ha.1) (ne_of_gt hb.1)) hv]
  unfold value
  push_cast
  field_simp

/-- The operator `/` with a non-zero divisor, read in `ℚ`. -/
theorem div_value {a b : rational_t} (ha : normal_form a) (hb : normal_form b)
    (hb0 : b.num ≠ 0) :
    ∃ r, div a b = some r ∧ normal_form r ∧ value r = value a / value b := by
  obtain ⟨r, hr, hn, hv⟩ := div_assign_spec ha hb hb0
  have hda : (a.denom : ℚ) ≠ 0 := by exact_mod_cast ne_of_gt ha.1
  have hdb : (b.denom : ℚ) ≠ 0 := by exact_mod_cast ne_of_gt hb.1
  have hnb : (b.num : ℚ) ≠ 0 := by exact_mod_cast hb0
  refine ⟨r, hr, hn, ?_⟩
  rw [value_eq_div_of_repr (ne_of_gt hn.1) (mul_ne_zero (ne_of_gt ha.1) hb0) hv]
  unfold value
  push_cast
  field_simp

theorem value_ne_zero {b : rational_t} (hb : normal_form b) (hb0 : b.num ≠ 0) :
    value b ≠ 0 := by
  have hdb : (b.denom : ℚ) ≠ 0 := by exact_mod_cast ne_of_gt hb.1
  have hnb : (b.num : ℚ) ≠ 0 := by exact_mod_cast hb0
  exact div_ne_zero hnb hdb

theorem normal_form_of_num (n : Int) : normal_form (of_num n) := by
  rw [normal_form_iff]
  exact ⟨Int.one_pos, isCoprime_one_right⟩

theorem value_of_num (n : Int) : value (of_num n) = (n : ℚ) := by
  simp [value, of_num]

theorem eq_fields_of_eq {r s : rational_t} (h : r = s) :
    eq r s = true ∧ r.num = s.num ∧ r.denom = s.denom := by
  subst h
  exact ⟨(eq_iff r r).mpr rfl, rfl, rfl⟩

theorem value_neg_num (a : rational_t) : value ⟨-a.num, a.denom⟩ = -value a := by
  simp [value, neg_div]

/-! The operators with another integer division -/

theorem normalize_with_congr {dv dv' : Int → Int → Option Int}
    (h : ∀ g q : Int, g ≠ 0 → dv (g * q) g = some q)
    (h' : ∀ g q : Int, g ≠ 0 → dv' (g * q) g = some q)
    (n d : Int) :
    normalize_with dv ⟨n, d⟩ = normalize_with dv' ⟨n, d⟩ := by
  by_cases hn : n = 0
  · simp [normalize_with, hn]
  · obtain ⟨g, n', d', hgd, hg, hn', hd', _⟩ := gcd_decomp n d (Or.inl hn)
    have hg0 : g ≠ 0 := ne_of_gt hg
    have key : ∀ f : Int → Int → Option Int, (∀ g q : Int, g ≠ 0 → f (g * q) g = some q) →
        normalize_with f ⟨n, d⟩ = if d' < 0 then some ⟨-n', -d'⟩ else some ⟨n', d'⟩ := by
      intro f hf
      have e1 : f n g = some n' := by
        rw [hn']
        exact hf g n' hg0
      have e2 : f d g = some d' := by
        rw [hd']
        exact hf g d' hg0
      simp [normalize_with, hn, hgd, e1, e2]
    rw [key dv h, key dv' h']

theorem add_assign_with_congr {dv dv' : Int → Int → Option Int}
    (h : ∀ g q : Int, g ≠ 0 → dv (g * q) g = some q)
    (h' : ∀ g q : Int, g ≠ 0 → dv' (g * q) g = some q)
    {a b : rational_t} (ha : 0 < a.denom) :
    add_assign_with dv a b = add_assign_with dv' a b := by
  obtain ⟨n1, d1⟩ := a
  obtain ⟨n2, d2⟩ := b
  simp only at ha
  obtain ⟨g, d1', d2', hgd, hg, e1, e2, _⟩ := gcd_decomp d1 d2 (Or.inl (ne_of_gt ha))
  have hg0 : g ≠ 0 := ne_of_gt hg
  obtain ⟨g2, t', g', hgt, hg2, et, eg, _⟩ :=
    gcd_decomp (n1 * d2' + n2 * d1') g (Or.inr hg0)
  have hg20 : g2 ≠ 0 := ne_of_gt hg2
  have key : ∀ f : Int → Int → Option Int, (∀ g q : Int, g ≠ 0 → f (g * q) g = some q) →
      add_assign_with f ⟨n1, d1⟩ ⟨n2, d2⟩ = some ⟨t', d1' * (g' * d2')⟩ := by
    intro f hf
    have i1 : f d1 g = some d1' := by
      rw [e1]
      exact hf g d1' hg0
    have i2 : f d2 g = some d2' := by
      rw [e2]
      exact hf g d2' hg0
    have i3 : f (n1 * d2' + n2 * d1') g2 = some t' := by
      rw [et]
      exact hf g2 t' hg20
    have i4 : f d2 g2 = some (g' * d2') := by
      rw [e2, eg, mul_assoc]
      exact hf g2 (g' * d2') hg20
    simp [add_assign_with, hgd, i1, i2, hgt, i3, i4]
  rw [key dv h, key dv' h']

theorem sub_assign_with_eq_add_assign_with (dv : Int → Int → Option Int) (a b : rational_t) :
    sub_assign_with dv a b = add_assign_with dv a ⟨-b.num, b.denom⟩ := by
  simp only [sub_assign_with, add_assign_with, sub_eq_add_neg, neg_mul]

theorem mul_assign_with_congr {dv dv' : Int → Int → Option Int}
    (h : ∀ g q : Int, g ≠ 0 → dv (g * q) g = some q)
    (h' : ∀ g q : Int, g ≠ 0 → dv' (g * q) g = some q)
    {a b : rational_t} (ha : 0 < a.denom) (hb : 0 < b.denom) :
    mul_assign_with dv a b = mul_assign_with dv' a b := by
  obtain ⟨n1, d1⟩ := a
  obtain ⟨n2, d2⟩ := b
  simp only at ha hb
  obtain ⟨g1, n1', d2', hg1e, hg1, e1, e2, _⟩ := gcd_decomp n1 d2 (Or.inr (ne_of_gt hb))
  obtain ⟨g2, n2', d1', hg2e, hg2, e3, e4, _⟩ := gcd_decomp n2 d1 (Or.inr (ne_of_gt ha))
  have hg10 : g1 ≠ 0 := ne_of_gt hg1
  have hg20 : g2 ≠ 0 := ne_of_gt hg2
  have key : ∀ f : Int → Int → Option Int, (∀ g q : Int, g ≠ 0 → f (g * q) g = some q) →
      mul_assign_with f ⟨n1, d1⟩ ⟨n2, d2⟩ = some ⟨n1' * n2', d1' * d2'⟩ := by
    intro f hf
    have i1 : f n1 g1 = some n1' := by
      rw [e1]
      exact hf g1 n1' hg10
    have i2 : f n2 g2 = some n2' := by
      rw [e3]
      exact hf g2 n2' hg20
    have i3 : f d1 g2 = some d1' := by
      rw [e4]
      exact hf g2 d1' hg20
    have i4 : f d2 g1 = some d2' := by
      rw [e2]
      exact hf g1 d2' hg10
    simp [mul_assign_with, hg1e, hg2e, i1, i2, i3, i4]
  rw [key dv h, key dv' h']

end rational_t

/-! The normal form and the constructors -/

open rational_t

/-- C1: for every integer `n` and every integer `d ≠ 0` the two-argument
constructor `rational_t(n, d)` completes with a value whose denominator is
positive and with `gcd(|numerator|, denominator) = 1`; `rational_t(0, d)` is
exactly `0/1`, the same value as `rational_t(0, 1)`; the one-argument
constructor `rational_t(n)` yields numerator `n` and denominator `1`, which is
in the same normal form. -/
theorem C1_constructor_normal_form (n d : Int) (hd : d ≠ 0) :
    (∃ r, of_num_denom n d = some r ∧ 0 < r.denom ∧ gcd |r.num| r.denom = 1) ∧
    of_num_denom 0 d = some ⟨0, 1⟩ ∧
    of_num_denom 0 d = of_num_denom 0 1 ∧
    (of_num n).num = n ∧ (of_num n).denom = 1 ∧
    (0 < (of_num n).denom ∧ gcd |(of_num n).num| (of_num n).denom = 1) := by
  refine ⟨?_, ?_, ?_, rfl, rfl, ?_⟩
  · obtain ⟨r, hr, hnf, _⟩ := normalize_spec n d hd
    exact ⟨r, hr, hnf⟩
  · simp [of_num_denom, rational_t.normalize]
  · simp [of_num_denom, rational_t.normalize]
  · have : normal_form (of_num n) := by
      rw [normal_form_iff]
      exact ⟨Int.one_pos, isCoprime_one_right⟩
    exact this

theorem C1_constructor_normal_form_witness :
    (-4 : Int) ≠ 0 ∧
    ((∃ r, of_num_denom 6 (-4) = some r ∧ 0 < r.denom ∧ gcd |r.num| r.denom = 1) ∧
    of_num_denom 0 (-4) = some ⟨0, 1⟩ ∧
    of_num_denom 0 (-4) = of_num_denom 0 1 ∧
    (of_num 6).num = 6 ∧ (of_num 6).denom = 1 ∧
    (0 < (of_num 6).denom ∧ gcd |(of_num 6).num| (of_num 6).denom = 1)) :=
  ⟨by decide, C1_constructor_normal_form 6 (-4) (by decide)⟩

/-- C2: structural equality decides equality of the represented rational
number: for all integers `n1`, `n2` and non-zero integers `d1`, `d2`, both
constructions complete and `rational_t(n1, d1) == rational_t(n2, d2)` is true
if and only if `n1 * d2 = n2 * d1`.  In particular
`rational_t(2,4) == rational_t(1,2)` and
`rational_t(-2,4) == rational_t(1,-2)` are true. -/
theorem C2_eq_iff_same_rational (n1 d1 n2 d2 : Int) (hd1 : d1 ≠ 0) (hd2 : d2 ≠ 0) :
    (∃ a b, of_num_denom n1 d1 = some a ∧ of_num_denom n2 d2 = some b ∧
      (rational_t.eq a b = true ↔ n1 * d2 = n2 * d1)) ∧
    (∃ a b, of_num_denom 2 4 = some a ∧ of_num_denom 1 2 = some b ∧
      rational_t.eq a b = true) ∧
    (∃ a b, of_num_denom (-2) 4 = some a ∧ of_num_denom 1 (-2) = some b ∧
      rational_t.eq a b = true) := by
  refine ⟨?_, ⟨⟨1, 2⟩, ⟨1, 2⟩, by decide, by decide, by decide⟩,
    ⟨⟨-1, 2⟩, ⟨-1, 2⟩, by decide, by decide, by decide⟩⟩
  obtain ⟨a, ha, han, hav⟩ := normalize_spec n1 d1 hd1
  obtain ⟨b, hb, hbn, hbv⟩ := normalize_spec n2 d2 hd2
  refine ⟨a, b, ha, hb, ?_⟩
  rw [eq_iff, ← cross_eq_iff hd1 hd2 (ne_of_gt han.1) (ne_of_gt hbn.1) hav hbv]
  constructor
  · intro h
    rw [h]
  · exact normal_form_unique han hbn

theorem C2_eq_iff_same_rational_witness :
    (6 : Int) ≠ 0 ∧ (-4 : Int) ≠ 0 ∧
    ((∃ a b, of_num_denom 3 6 = some a ∧ of_num_denom (-2) (-4) = some b ∧
      (rational_t.eq a b = true ↔ (3 : Int) * (-4) = (-2) * 6)) ∧
    (∃ a b, of_num_denom 2 4 = some a ∧ of_num_denom 1 2 = some b ∧
      rational_t.eq a b = true) ∧
    (∃ a b, of_num_denom (-2) 4 = some a ∧ of_num_denom 1 (-2) = some b ∧
      rational_t.eq a b = true)) :=
  ⟨by decide, by decide, C2_eq_iff_same_rational 3 6 (-2) (-4) (by decide) (by decide)⟩

/-! The binary arithmetic operators -/

/-- C3: the normal form is preserved by the four binary arithmetic operators:
for all `a` and `b` in normal form (denominator `> 0` and
`gcd(|numerator|, denominator) = 1`), each of `a + b`, `a - b` and `a * b`
completes with a result in normal form, and so does `a / b` whenever
`b.numerator ≠ 0`; a zero result is exactly `0/1`.  None of the operators calls
`normalize()`. -/
theorem C3_operators_preserve_normal_form (a b : rational_t)
    (ha : normal_form a) (hb : normal_form b) :
    (∃ r, add a b = some r ∧ (0 < r.denom ∧ gcd |r.num| r.denom = 1) ∧
      (r.num = 0 → r = ⟨0, 1⟩)) ∧
    (∃ r, sub a b = some r ∧ (0 < r.denom ∧ gcd |r.num| r.denom = 1) ∧
      (r.num = 0 → r = ⟨0, 1⟩)) ∧
    (∃ r, mul a b = some r ∧ (0 < r.denom ∧ gcd |r.num| r.denom = 1) ∧
      (r.num = 0 → r = ⟨0, 1⟩)) ∧
    (b.num ≠ 0 → ∃ r, div a b = some r ∧ (0 < r.denom ∧ gcd |r.num| r.denom = 1) ∧
      (r.num = 0 → r = ⟨0, 1⟩)) := by
  refine ⟨?_, ?_, ?_, ?_⟩
  · obtain ⟨r, hr, hn, _⟩ := add_assign_spec ha hb
    exact ⟨r, hr, hn, normal_form_zero hn⟩
  · obtain ⟨r, hr, hn, _⟩ := sub_assign_spec ha hb
    exact ⟨r, hr, hn, normal_form_zero hn⟩
  · obtain ⟨r, hr, hn, _⟩ := mul_assign_spec ha hb
    exact ⟨r, hr, hn, normal_form_zero hn⟩
  · intro hb0
    obtain ⟨r, hr, hn, _⟩ := div_assign_spec ha hb hb0
    exact ⟨r, hr, hn, normal_form_zero hn⟩

theorem C3_operators_preserve_normal_form_witness :
    normal_form ⟨5, 6⟩ ∧ normal_form ⟨-3, 4⟩ ∧
    ((∃ r, add ⟨5, 6⟩ ⟨-3, 4⟩ = some r ∧ (0 < r.denom ∧ gcd |r.num| r.denom = 1) ∧
      (r.num = 0 → r = ⟨0, 1⟩)) ∧
    (∃ r, sub ⟨5, 6⟩ ⟨-3, 4⟩ = some r ∧ (0 < r.denom ∧ gcd |r.num| r.denom = 1) ∧
      (r.num = 0 → r = ⟨0, 1⟩)) ∧
    (∃ r, mul ⟨5, 6⟩ ⟨-3, 4⟩ = some r ∧ (0 < r.denom ∧ gcd |r.num| r.denom = 1) ∧
      (r.num = 0 → r = ⟨0, 1⟩)) ∧
    ((⟨-3, 4⟩ : rational_t).num ≠ 0 →
      ∃ r, div ⟨5, 6⟩ ⟨-3, 4⟩ = some r ∧ (0 < r.denom ∧ gcd |r.num| r.denom = 1) ∧
      (r.num = 0 → r = ⟨0, 1⟩))) :=
  ⟨by decide, by decide, C3_operators_preserve_normal_form ⟨5, 6⟩ ⟨-3, 4⟩ (by decide) (by decide)⟩

/-- C4: addition equals the normalised naive sum: for all `a = n1/d1` and
`b = n2/d2` in normal form, `a + b` completes and
`a + b == rational_t(n1*d2 + n2*d1, d1*d2)`, field for field.  Witness:
`1/2 + 1/3 == 5/6`. -/
theorem C4_add_eq_normalised_sum (a b : rational_t)
    (ha : normal_form a) (hb : normal_form b) :
    (∃ r s, add a b = some r ∧
      of_num_denom (a.num * b.denom + b.num * a.denom) (a.denom * b.denom) = some s ∧
      rational_t.eq r s = true ∧ r.num = s.num ∧ r.denom = s.denom) ∧
    (∃ x y z r, of_num_denom 1 2 = some x ∧ of_num_denom 1 3 = some y ∧
      of_num_denom 5 6 = some z ∧ add x y = some r ∧ rational_t.eq r z = true) := by
  refine ⟨?_, ⟨⟨1, 2⟩, ⟨1, 3⟩, ⟨5, 6⟩, ⟨5, 6⟩, by decide, by decide, by decide, by decide,
    by decide⟩⟩
  obtain ⟨r, hr, hn, hv⟩ := add_assign_spec ha hb
  have hd : a.denom * b.denom ≠ 0 := mul_ne_zero (ne_of_gt ha.1) (ne_of_gt hb.1)
  exact ⟨r, r, hr, of_num_denom_eq_of_repr hn hd hv, (eq_iff r r).mpr rfl, rfl, rfl⟩

theorem C4_add_eq_normalised_sum_witness :
    normal_form ⟨1, 6⟩ ∧ normal_form ⟨-5, 12⟩ ∧
    ((∃ r s, add ⟨1, 6⟩ ⟨-5, 12⟩ = some r ∧
      of_num_denom ((⟨1, 6⟩ : rational_t).num * (⟨-5, 12⟩ : rational_t).denom +
        (⟨-5, 12⟩ : rational_t).num * (⟨1, 6⟩ : rational_t).denom)
        ((⟨1, 6⟩ : rational_t).denom * (⟨-5, 12⟩ : rational_t).denom) = some s ∧
      rational_t.eq r s = true ∧ r.num = s.num ∧ r.denom = s.denom) ∧
    (∃ x y z r, of_num_denom 1 2 = some x ∧ of_num_denom 1 3 = some y ∧
      of_num_denom 5 6 = some z ∧ add x y = some r ∧ rational_t.eq r z = true)) :=
  ⟨by decide, by decide, C4_add_eq_normalised_sum ⟨1, 6⟩ ⟨-5, 12⟩ (by decide) (by decide)⟩

/-- C5: multiplication equals the normalised naive product: for all
`a = n1/d1` and `b = n2/d2` in normal form, `a * b` completes and
`a * b == rational_t(n1*n2, d1*d2)`, field for field, also when a numerator is
`0`.  Witness: `3/4 * 2/3 == 1/2`. -/
theorem C5_mul_eq_normalised_product (a b : rational_t)
    (ha : normal_form a) (hb : normal_form b) :
    (∃ r s, mul a b = some r ∧
      of_num_denom (a.num * b.num) (a.denom * b.denom) = some s ∧
      rational_t.eq r s = true ∧ r.num = s.num ∧ r.denom = s.denom) ∧
    (∃ x y z r, of_num_denom 3 4 = some x ∧ of_num_denom 2 3 = some y ∧
      of_num_denom 1 2 = some z ∧ mul x y = some r ∧ rational_t.eq r z = true) := by
  refine ⟨?_, ⟨⟨3, 4⟩, ⟨2, 3⟩, ⟨1, 2⟩, ⟨1, 2⟩, by decide, by decide, by decide, by decide,
    by decide⟩⟩
  obtain ⟨r, hr, hn, hv⟩ := mul_assign_spec ha hb
  have hd : a.denom * b.denom ≠ 0 := mul_ne_zero (ne_of_gt ha.1) (ne_of_gt hb.1)
  exact ⟨r, r, hr, of_num_denom_eq_of_repr hn hd hv, (eq_iff r r).mpr rfl, rfl, rfl⟩

theorem C5_mul_eq_normalised_product_witness :
    normal_form ⟨0, 1⟩ ∧ normal_form ⟨-5, 12⟩ ∧
    ((∃ r s, mul ⟨0, 1⟩ ⟨-5, 12⟩ = some r ∧
      of_num_denom ((⟨0, 1⟩ : rational_t).num * (⟨-5, 12⟩ : rational_t).num)
        ((⟨0, 1⟩ : rational_t).denom * (⟨-5, 12⟩ : rational_t).denom) = some s ∧
      rational_t.eq r s = true ∧ r.num = s.num ∧ r.denom = s.denom) ∧
    (∃ x y z r, of_num_denom 3 4 = some x ∧ of_num_denom 2 3 = some y ∧
      of_num_denom 1 2 = some z ∧ mul x y = some r ∧ rational_t.eq r z = true)) :=
  ⟨by decide, by decide, C5_mul_eq_normalised_product ⟨0, 1⟩ ⟨-5, 12⟩ (by decide) (by decide)⟩

/-- C6: division by a non-zero value equals the normalised naive quotient: for
all `a = n1/d1` and `b = n2/d2` in normal form with `n2 ≠ 0`, `a / b` completes
and `a / b == rational_t(n1*d2, d1*n2)`, field for field; a zero dividend gives
`0/1`, and for a negative divisor the denominator of the result is still
positive.  Witness: `1/2 / 1/3 == 3/2`. -/
theorem C6_div_eq_normalised_quotient (a b : rational_t)
    (ha : normal_form a) (hb : normal_form b) (hb0 : b.num ≠ 0) :
    (∃ r s, div a b = some r ∧
      of_num_denom (a.num * b.denom) (a.denom * b.num) = some s ∧
      rational_t.eq r s = true ∧ r.num = s.num ∧ r.denom = s.denom) ∧
    (a.num = 0 → div a b = some ⟨0, 1⟩) ∧
    (b.num < 0 → ∃ r, div a b = some r ∧ 0 < r.denom) ∧
    (∃ x y z r, of_num_denom 1 2 = some x ∧ of_num_denom 1 3 = some y ∧
      of_num_denom 3 2 = some z ∧ div x y = some r ∧ rational_t.eq r z = true) := by
  obtain ⟨r, hr, hn, hv⟩ := div_assign_spec ha hb hb0
  have hd : a.denom * b.num ≠ 0 := mul_ne_zero (ne_of_gt ha.1) hb0
  refine ⟨⟨r, r, hr, of_num_denom_eq_of_repr hn hd hv, (eq_iff r r).mpr rfl, rfl, rfl⟩, ?_,
    fun _ => ⟨r, hr, hn.1⟩,
    ⟨⟨1, 2⟩, ⟨1, 3⟩, ⟨3, 2⟩, ⟨3, 2⟩, by decide, by decide, by decide, by decide, by decide⟩⟩
  intro h0
  have hr0 : r.num = 0 := by
    rw [h0, zero_mul, zero_mul] at hv
    rcases mul_eq_zero.mp hv with h | h
    · exact h
    · exact absurd h hd
  rw [← normal_form_zero hn hr0]
  exact hr

theorem C6_div_eq_normalised_quotient_witness :
    normal_form ⟨5, 6⟩ ∧ normal_form ⟨-10, 9⟩ ∧ (⟨-10, 9⟩ : rational_t).num ≠ 0 ∧
    ((∃ r s, div ⟨5, 6⟩ ⟨-10, 9⟩ = some r ∧
      of_num_denom ((⟨5, 6⟩ : rational_t).num * (⟨-10, 9⟩ : rational_t).denom)
        ((⟨5, 6⟩ : rational_t).denom * (⟨-10, 9⟩ : rational_t).num) = some s ∧
      rational_t.eq r s = true ∧ r.num = s.num ∧ r.denom = s.denom) ∧
    ((⟨5, 6⟩ : rational_t).num = 0 → div ⟨5, 6⟩ ⟨-10, 9⟩ = some ⟨0, 1⟩) ∧
    ((⟨-10, 9⟩ : rational_t).num < 0 → ∃ r, div ⟨5, 6⟩ ⟨-10, 9⟩ = some r ∧ 0 < r.denom) ∧
    (∃ x y z r, of_num_denom 1 2 = some x ∧ of_num_denom 1 3 = some y ∧
      of_num_denom 3 2 = some z ∧ div x y = some r ∧ rational_t.eq r z = true)) :=
  ⟨by decide, by decide, by decide,
    C6_div_eq_normalised_quotient ⟨5, 6⟩ ⟨-10, 9⟩ (by decide) (by decide) (by decide)⟩

/-- C7: subtraction equals the normalised naive difference: for all
`a = n1/d1` and `b = n2/d2` in normal form, `a - b` completes and
`a - b == rational_t(n1*d2 - n2*d1, d1*d2)`, field for field; `a - b` is also
the value of `a + (-b)`; and `a - a` is exactly `0/1`. -/
theorem C7_sub_eq_normalised_difference (a b : rational_t)
    (ha : normal_form a) (hb : normal_form b) :
    (∃ r s, sub a b = some r ∧
      of_num_denom (a.num * b.denom - b.num * a.denom) (a.denom * b.denom) = some s ∧
      rational_t.eq r s = true ∧ r.num = s.num ∧ r.denom = s.denom) ∧
    (∃ r nb s, sub a b = some r ∧ neg b = some nb ∧ add a nb = some s ∧
      rational_t.eq r s = true ∧ r.num = s.num ∧ r.denom = s.denom) ∧
    sub a a = some ⟨0, 1⟩ := by
  obtain ⟨r, hr, hn, hv⟩ := sub_assign_spec ha hb
  have hd : a.denom * b.denom ≠ 0 := mul_ne_zero (ne_of_gt ha.1) (ne_of_gt hb.1)
  refine ⟨⟨r, r, hr, of_num_denom_eq_of_repr hn hd hv, (eq_iff r r).mpr rfl, rfl, rfl⟩, ?_, ?_⟩
  · refine ⟨r, ⟨-b.num, b.denom⟩, r, hr, neg_spec hb, ?_, (eq_iff r r).mpr rfl, rfl, rfl⟩
    show add_assign a ⟨-b.num, b.denom⟩ = some r
    rw [← sub_assign_eq_add_assign]
    exact hr
  · obtain ⟨z, hz, hzn, hzv⟩ := sub_assign_spec ha ha
    have hz0 : z.num = 0 := by
      rw [sub_self, zero_mul] at hzv
      rcases mul_eq_zero.mp hzv with h | h
      · exact h
      · exact absurd h (mul_ne_zero (ne_of_gt ha.1) (ne_of_gt ha.1))
    rw [← normal_form_zero hzn hz0]
    exact hz

theorem C7_sub_eq_normalised_difference_witness :
    normal_form ⟨1, 6⟩ ∧ normal_form ⟨-5, 12⟩ ∧
    ((∃ r s, sub ⟨1, 6⟩ ⟨-5, 12⟩ = some r ∧
      of_num_denom ((⟨1, 6⟩ : rational_t).num * (⟨-5, 12⟩ : rational_t).denom -
        (⟨-5, 12⟩ : rational_t).num * (⟨1, 6⟩ : rational_t).denom)
        ((⟨1, 6⟩ : rational_t).denom * (⟨-5, 12⟩ : rational_t).denom) = some s ∧
      rational_t.eq r s = true ∧ r.num = s.num ∧ r.denom = s.denom) ∧
    (∃ r nb s, sub ⟨1, 6⟩ ⟨-5, 12⟩ = some r ∧ neg ⟨-5, 12⟩ = some nb ∧
      add ⟨1, 6⟩ nb = some s ∧
      rational_t.eq r s = true ∧ r.num = s.num ∧ r.denom = s.denom) ∧
    sub ⟨1, 6⟩ ⟨1, 6⟩ = some ⟨0, 1⟩) :=
  ⟨by decide, by decide, C7_sub_eq_normalised_difference ⟨1, 6⟩ ⟨-5, 12⟩ (by decide) (by decide)⟩

/-- C8: unary negation only flips the numerator: for every `a` in normal form,
`-a` completes with numerator `-a.numerator` and denominator `a.denominator`,
that is, `normalize()` leaves `(-a.numerator, a.denominator)` unchanged; hence
`-a` is in normal form, and `-rational_t(3,4) == rational_t(-3,4)`. -/
theorem C8_neg_flips_numerator (a : rational_t) (ha : normal_form a) :
    (∃ r, neg a = some r ∧ r.num = -a.num ∧ r.denom = a.denom ∧
      (0 < r.denom ∧ gcd |r.num| r.denom = 1)) ∧
    rational_t.normalize ⟨-a.num, a.denom⟩ = some ⟨-a.num, a.denom⟩ ∧
    (∃ x y r, of_num_denom 3 4 = some x ∧ of_num_denom (-3) 4 = some y ∧
      neg x = some r ∧ rational_t.eq r y = true) := by
  refine ⟨⟨⟨-a.num, a.denom⟩, neg_spec ha, rfl, rfl, normal_form_neg_num ha⟩, neg_spec ha,
    ⟨⟨3, 4⟩, ⟨-3, 4⟩, ⟨-3, 4⟩, by decide, by decide, by decide, by decide⟩⟩

theorem C8_neg_flips_numerator_witness :
    normal_form ⟨-5, 12⟩ ∧
    ((∃ r, neg ⟨-5, 12⟩ = some r ∧ r.num = -(⟨-5, 12⟩ : rational_t).num ∧
      r.denom = (⟨-5, 12⟩ : rational_t).denom ∧
      (0 < r.denom ∧ gcd |r.num| r.denom = 1)) ∧
    rational_t.normalize ⟨-(⟨-5, 12⟩ : rational_t).num, (⟨-5, 12⟩ : rational_t).denom⟩ =
      some ⟨-(⟨-5, 12⟩ : rational_t).num, (⟨-5, 12⟩ : rational_t).denom⟩ ∧
    (∃ x y r, of_num_denom 3 4 = some x ∧ of_num_denom (-3) 4 = some y ∧
      neg x = some r ∧ rational_t.eq r y = true)) :=
  ⟨by decide, C8_neg_flips_numerator ⟨-5, 12⟩ (by decide)⟩

/-! Comparison -/

/-- C9: `operator <` agrees with the order of the rational numbers
represented: for all integers `n1`, `n2` and non-zero integers `d1`, `d2` of
either sign, both constructions complete with positive denominators and
`rational_t(n1, d1) < rational_t(n2, d2)` is true if and only if
`n1/d1 < n2/d2` in `ℚ`.  Witness: `1/2 < 2/3` is true and `2/3 < 1/2` is
false. -/
theorem C9_lt_iff_rational_order (n1 d1 n2 d2 : Int) (hd1 : d1 ≠ 0) (hd2 : d2 ≠ 0) :
    (∃ a b, of_num_denom n1 d1 = some a ∧ of_num_denom n2 d2 = some b ∧
      0 < a.denom ∧ 0 < b.denom ∧
      (rational_t.lt a b = true ↔ (n1 : ℚ) / (d1 : ℚ) < (n2 : ℚ) / (d2 : ℚ))) ∧
    (∃ x y, of_num_denom 1 2 = some x ∧ of_num_denom 2 3 = some y ∧
      rational_t.lt x y = true ∧ rational_t.lt y x = false) := by
  refine ⟨?_, ⟨⟨1, 2⟩, ⟨2, 3⟩, by decide, by decide, by decide, by decide⟩⟩
  obtain ⟨a, ha, han, hav⟩ := normalize_spec n1 d1 hd1
  obtain ⟨b, hb, hbn, hbv⟩ := normalize_spec n2 d2 hd2
  refine ⟨a, b, ha, hb, han.1, hbn.1, ?_⟩
  have hda : (0 : ℚ) < (a.denom : ℚ) := by exact_mod_cast han.1
  have hdb : (0 : ℚ) < (b.denom : ℚ) := by exact_mod_cast hbn.1
  have hd1q : (d1 : ℚ) ≠ 0 := by exact_mod_cast hd1
  have hd2q : (d2 : ℚ) ≠ 0 := by exact_mod_cast hd2
  have e1 : (n1 : ℚ) / (d1 : ℚ) = (a.num : ℚ) / (a.denom : ℚ) := by
    rw [div_eq_div_iff hd1q (ne_of_gt hda)]
    exact_mod_cast hav.symm
  have e2 : (n2 : ℚ) / (d2 : ℚ) = (b.num : ℚ) / (b.denom : ℚ) := by
    rw [div_eq_div_iff hd2q (ne_of_gt hdb)]
    exact_mod_cast hbv.symm
  rw [e1, e2, div_lt_div_iff₀ hda hdb]
  simp only [rational_t.lt, decide_eq_true_eq]
  exact_mod_cast Iff.rfl

theorem C9_lt_iff_rational_order_witness :
    (-2 : Int) ≠ 0 ∧ (-6 : Int) ≠ 0 ∧
    ((∃ a b, of_num_denom 1 (-2) = some a ∧ of_num_denom 2 (-6) = some b ∧
      0 < a.denom ∧ 0 < b.denom ∧
      (rational_t.lt a b = true ↔
        ((1 : Int) : ℚ) / ((-2 : Int) : ℚ) < ((2 : Int) : ℚ) / ((-6 : Int) : ℚ))) ∧
    (∃ x y, of_num_denom 1 2 = some x ∧ of_num_denom 2 3 = some y ∧
      rational_t.lt x y = true ∧ rational_t.lt y x = false)) :=
  ⟨by decide, by decide, C9_lt_iff_rational_order 1 (-2) 2 (-6) (by decide) (by decide)⟩

/-- C10: trichotomy: for all `a` and `b` in normal form, exactly one of
`a < b`, `a == b`, `b < a` is true, with the field-wise `operator ==` and the
cross-multiplying `operator <`. -/
theorem C10_trichotomy (a b : rational_t) (ha : normal_form a) (hb : normal_form b) :
    (rational_t.lt a b = true ∧ rational_t.eq a b = false ∧ rational_t.lt b a = false) ∨
    (rational_t.lt a b = false ∧ rational_t.eq a b = true ∧ rational_t.lt b a = false) ∨
    (rational_t.lt a b = false ∧ rational_t.eq a b = false ∧ rational_t.lt b a = true) := by
  have hne : a.num * b.denom ≠ b.num * a.denom → rational_t.eq a b = false := by
    intro h
    rw [eq_false_iff]
    rintro rfl
    exact h rfl
  rcases lt_trichotomy (a.num * b.denom) (b.num * a.denom) with h | h | h
  · left
    refine ⟨by simp [rational_t.lt, h], hne (ne_of_lt h), ?_⟩
    simp only [rational_t.lt, decide_eq_false_iff_not]
    omega
  · right
    left
    refine ⟨?_, (eq_iff a b).mpr (normal_form_unique ha hb h), ?_⟩
    · simp only [rational_t.lt, decide_eq_false_iff_not]
      omega
    · simp only [rational_t.lt, decide_eq_false_iff_not]
      omega
  · right
    right
    refine ⟨?_, hne (ne_of_gt h), by simp [rational_t.lt, h]⟩
    simp only [rational_t.lt, decide_eq_false_iff_not]
    omega

theorem C10_trichotomy_witness :
    normal_form ⟨1, 6⟩ ∧ normal_form ⟨-5, 12⟩ ∧
    ((rational_t.lt ⟨1, 6⟩ ⟨-5, 12⟩ = true ∧ rational_t.eq ⟨1, 6⟩ ⟨-5, 12⟩ = false ∧
      rational_t.lt ⟨-5, 12⟩ ⟨1, 6⟩ = false) ∨
    (rational_t.lt ⟨1, 6⟩ ⟨-5, 12⟩ = false ∧ rational_t.eq ⟨1, 6⟩ ⟨-5, 12⟩ = true ∧
      rational_t.lt ⟨-5, 12⟩ ⟨1, 6⟩ = false) ∨
    (rational_t.lt ⟨1, 6⟩ ⟨-5, 12⟩ = false ∧ rational_t.eq ⟨1, 6⟩ ⟨-5, 12⟩ = false ∧
      rational_t.lt ⟨-5, 12⟩ ⟨1, 6⟩ = true)) :=
  ⟨by decide, by decide, C10_trichotomy ⟨1, 6⟩ ⟨-5, 12⟩ (by decide) (by decide)⟩

/-! Algebraic laws -/

/-- C11: associativity: for all `a`, `b`, `c` in normal form, all the sums and
products below complete, and `(a + b) + c == a + (b + c)` and
`(a * b) * c == a * (b * c)` hold field for field. -/
theorem C11_associativity (a b c : rational_t)
    (ha : normal_form a) (hb : normal_form b) (hc : normal_form c) :
    (∃ ab bc l r, add a b = some ab ∧ add ab c = some l ∧
      add b c = some bc ∧ add a bc = some r ∧
      rational_t.eq l r = true ∧ l.num = r.num ∧ l.denom = r.denom) ∧
    (∃ ab bc l r, mul a b = some ab ∧ mul ab c = some l ∧
      mul b c = some bc ∧ mul a bc = some r ∧
      rational_t.eq l r = true ∧ l.num = r.num ∧ l.denom = r.denom) := by
  constructor
  · obtain ⟨ab, h1, n1, v1⟩ := add_value ha hb
    obtain ⟨l, h2, n2, v2⟩ := add_value n1 hc
    obtain ⟨bc, h3, n3, v3⟩ := add_value hb hc
    obtain ⟨r, h4, n4, v4⟩ := add_value ha n3
    refine ⟨ab, bc, l, r, h1, h2, h3, h4, eq_fields_of_eq (eq_of_value_eq n2 n4 ?_)⟩
    rw [v2, v1, v4, v3, add_assoc]
  · obtain ⟨ab, h1, n1, v1⟩ := mul_value ha hb
    obtain ⟨l, h2, n2, v2⟩ := mul_value n1 hc
    obtain ⟨bc, h3, n3, v3⟩ := mul_value hb hc
    obtain ⟨r, h4, n4, v4⟩ := mul_value ha n3
    refine ⟨ab, bc, l, r, h1, h2, h3, h4, eq_fields_of_eq (eq_of_value_eq n2 n4 ?_)⟩
    rw [v2, v1, v4, v3, mul_assoc]

theorem C11_associativity_witness :
    normal_form ⟨1, 6⟩ ∧ normal_form ⟨-5, 12⟩ ∧ normal_form ⟨3, 4⟩ ∧
    ((∃ ab bc l r, add ⟨1, 6⟩ ⟨-5, 12⟩ = some ab ∧ add ab ⟨3, 4⟩ = some l ∧
      add ⟨-5, 12⟩ ⟨3, 4⟩ = some bc ∧ add ⟨1, 6⟩ bc = some r ∧
      rational_t.eq l r = true ∧ l.num = r.num ∧ l.denom = r.denom) ∧
    (∃ ab bc l r, mul ⟨1, 6⟩ ⟨-5, 12⟩ = some ab ∧ mul ab ⟨3, 4⟩ = some l ∧
      mul ⟨-5, 12⟩ ⟨3, 4⟩ = some bc ∧ mul ⟨1, 6⟩ bc = some r ∧
      rational_t.eq l r = true ∧ l.num = r.num ∧ l.denom = r.denom)) :=
  ⟨by decide, by decide, by decide,
    C11_associativity ⟨1, 6⟩ ⟨-5, 12⟩ ⟨3, 4⟩ (by decide) (by decide) (by decide)⟩

/-- C12: commutativity: for all `a` and `b` in normal form, `a + b == b + a`
and `a * b == b * a` hold field for field, although `operator +=` treats its
two operands asymmetrically. -/
theorem C12_commutativity (a b : rational_t) (ha : normal_form a) (hb : normal_form b) :
    (∃ l r, add a b = some l ∧ add b a = some r ∧
      rational_t.eq l r = true ∧ l.num = r.num ∧ l.denom = r.denom) ∧
    (∃ l r, mul a b = some l ∧ mul b a = some r ∧
      rational_t.eq l r = true ∧ l.num = r.num ∧ l.denom = r.denom) := by
  constructor
  · obtain ⟨l, h1, n1, v1⟩ := add_value ha hb
    obtain ⟨r, h2, n2, v2⟩ := add_value hb ha
    refine ⟨l, r, h1, h2, eq_fields_of_eq (eq_of_value_eq n1 n2 ?_)⟩
    rw [v1, v2, add_comm]
  · obtain ⟨l, h1, n1, v1⟩ := mul_value ha hb
    obtain ⟨r, h2, n2, v2⟩ := mul_value hb ha
    refine ⟨l, r, h1, h2, eq_fields_of_eq (eq_of_value_eq n1 n2 ?_)⟩
    rw [v1, v2, mul_comm]

theorem C12_commutativity_witness :
    normal_form ⟨1, 6⟩ ∧ normal_form ⟨-5, 12⟩ ∧
    ((∃ l r, add ⟨1, 6⟩ ⟨-5, 12⟩ = some l ∧ add ⟨-5, 12⟩ ⟨1, 6⟩ = some r ∧
      rational_t.eq l r = true ∧ l.num = r.num ∧ l.denom = r.denom) ∧
    (∃ l r, mul ⟨1, 6⟩ ⟨-5, 12⟩ = some l ∧ mul ⟨-5, 12⟩ ⟨1, 6⟩ = some r ∧
      rational_t.eq l r = true ∧ l.num = r.num ∧ l.denom = r.denom)) :=
  ⟨by decide, by decide, C12_commutativity ⟨1, 6⟩ ⟨-5, 12⟩ (by decide) (by decide)⟩

/-- C13: division undoes multiplication: for all `a` and `b` in normal form
with `b.numerator ≠ 0`, the quotient and the product complete and
`(a / b) * b == a` holds field for field. -/
theorem C13_div_mul_cancel (a b : rational_t) (ha : normal_form a) (hb : normal_form b)
    (hb0 : b.num ≠ 0) :
    ∃ q r, div a b = some q ∧ mul q b = some r ∧
      rational_t.eq r a = true ∧ r.num = a.num ∧ r.denom = a.denom := by
  obtain ⟨q, h1, n1, v1⟩ := div_value ha hb hb0
  obtain ⟨r, h2, n2, v2⟩ := mul_value n1 hb
  refine ⟨q, r, h1, h2, eq_fields_of_eq (eq_of_value_eq n2 ha ?_)⟩
  rw [v2, v1, div_mul_cancel₀ _ (value_ne_zero hb hb0)]

theorem C13_div_mul_cancel_witness :
    normal_form ⟨5, 6⟩ ∧ normal_form ⟨-10, 9⟩ ∧ (⟨-10, 9⟩ : rational_t).num ≠ 0 ∧
    (∃ q r, div ⟨5, 6⟩ ⟨-10, 9⟩ = some q ∧ mul q ⟨-10, 9⟩ = some r ∧
      rational_t.eq r ⟨5, 6⟩ = true ∧ r.num = (⟨5, 6⟩ : rational_t).num ∧
      r.denom = (⟨5, 6⟩ : rational_t).denom) :=
  ⟨by decide, by decide, by decide,
    C13_div_mul_cancel ⟨5, 6⟩ ⟨-10, 9⟩ (by decide) (by decide) (by decide)⟩

/-- C14: additive identity and inverse: for every `a` in normal form,
`a + rational_t(0) == a`, and `-a` and `a + (-a)` complete with
`a + (-a) == rational_t(0)`, that is, exactly `0/1`. -/
theorem C14_add_identity_inverse (a : rational_t) (ha : normal_form a) :
    (∃ r, add a (of_num 0) = some r ∧
      rational_t.eq r a = true ∧ r.num = a.num ∧ r.denom = a.denom) ∧
    (∃ na r, neg a = some na ∧ add a na = some r ∧
      rational_t.eq r (of_num 0) = true ∧ r.num = 0 ∧ r.denom = 1) := by
  constructor
  · obtain ⟨r, h1, n1, v1⟩ := add_value ha (normal_form_of_num 0)
    refine ⟨r, h1, eq_fields_of_eq (eq_of_value_eq n1 ha ?_)⟩
    rw [v1, value_of_num]
    simp
  · obtain ⟨r, h1, n1, v1⟩ := add_value ha (normal_form_neg_num ha)
    refine ⟨⟨-a.num, a.denom⟩, r, neg_spec ha, h1, ?_⟩
    have hr : r = of_num 0 := by
      apply eq_of_value_eq n1 (normal_form_of_num 0)
      rw [v1, value_of_num, value_neg_num]
      simp
    exact eq_fields_of_eq hr

theorem C14_add_identity_inverse_witness :
    normal_form ⟨-5, 12⟩ ∧
    ((∃ r, add ⟨-5, 12⟩ (of_num 0) = some r ∧
      rational_t.eq r ⟨-5, 12⟩ = true ∧ r.num = (⟨-5, 12⟩ : rational_t).num ∧
      r.denom = (⟨-5, 12⟩ : rational_t).denom) ∧
    (∃ na r, neg ⟨-5, 12⟩ = some na ∧ add ⟨-5, 12⟩ na = some r ∧
      rational_t.eq r (of_num 0) = true ∧ r.num = 0 ∧ r.denom = 1)) :=
  ⟨by decide, C14_add_identity_inverse ⟨-5, 12⟩ (by decide)⟩

/-- C15: multiplicative identity: for every `a` in normal form,
`a * rational_t(1) == a` and `rational_t(1) * a == a` hold field for field. -/
theorem C15_mul_identity (a : rational_t) (ha : normal_form a) :
    (∃ r, mul a (of_num 1) = some r ∧
      rational_t.eq r a = true ∧ r.num = a.num ∧ r.denom = a.denom) ∧
    (∃ r, mul (of_num 1) a = some r ∧
      rational_t.eq r a = true ∧ r.num = a.num ∧ r.denom = a.denom) := by
  constructor
  · obtain ⟨r, h1, n1, v1⟩ := mul_value ha (normal_form_of_num 1)
    refine ⟨r, h1, eq_fields_of_eq (eq_of_value_eq n1 ha ?_)⟩
    rw [v1, value_of_num]
    simp
  · obtain ⟨r, h1, n1, v1⟩ := mul_value (normal_form_of_num 1) ha
    refine ⟨r, h1, eq_fields_of_eq (eq_of_value_eq n1 ha ?_)⟩
    rw [v1, value_of_num]
    simp

theorem C15_mul_identity_witness :
    normal_form ⟨-5, 12⟩ ∧
    ((∃ r, mul ⟨-5, 12⟩ (of_num 1) = some r ∧
      rational_t.eq r ⟨-5, 12⟩ = true ∧ r.num = (⟨-5, 12⟩ : rational_t).num ∧
      r.denom = (⟨-5, 12⟩ : rational_t).denom) ∧
    (∃ r, mul (of_num 1) ⟨-5, 12⟩ = some r ∧
      rational_t.eq r ⟨-5, 12⟩ = true ∧ r.num = (⟨-5, 12⟩ : rational_t).num ∧
      r.denom = (⟨-5, 12⟩ : rational_t).denom)) :=
  ⟨by decide, C15_mul_identity ⟨-5, 12⟩ (by decide)⟩

/-! Totality and the unguarded cases -/

/-- C16: totality of the non-dividing operations: for all operands in normal
form, `+=`, `-=`, `*=` and unary `-` (with the `normalize()` it triggers)
complete, and they complete with the same result when every integer division
is replaced by exact division (which fails unless the divisor is non-zero and
divides the dividend exactly) or by flooring division; so every division they
execute has a non-zero divisor that divides its dividend, and truncating
versus flooring makes no difference.  With `idiv` as the division the
parameterised bodies are the operators themselves. -/
theorem C16_non_dividing_operations_total (a b : rational_t)
    (ha : normal_form a) (hb : normal_form b) :
    (∃ r, add_assign a b = some r ∧ add_assign_with exact_div a b = some r ∧
      add_assign_with floor_div a b = some r) ∧
    (∃ r, sub_assign a b = some r ∧ sub_assign_with exact_div a b = some r ∧
      sub_assign_with floor_div a b = some r) ∧
    (∃ r, mul_assign a b = some r ∧ mul_assign_with exact_div a b = some r ∧
      mul_assign_with floor_div a b = some r) ∧
    (∃ r, neg a = some r ∧ neg_with exact_div a = some r ∧
      neg_with floor_div a = some r) ∧
    (add_assign_with idiv a b = add_assign a b ∧
      sub_assign_with idiv a b = sub_assign a b ∧
      mul_assign_with idiv a b = mul_assign a b ∧
      neg_with idiv a = neg a) := by
  have hi : ∀ g q : Int, g ≠ 0 → idiv (g * q) g = some q := fun g q hg => idiv_mul_left hg q
  refine ⟨?_, ?_, ?_, ?_, rfl, rfl, rfl, rfl⟩
  · obtain ⟨r, hr, _⟩ := add_assign_spec ha hb
    refine ⟨r, hr, ?_, ?_⟩
    · rw [add_assign_with_congr exact_div_mul_left hi ha.1]
      exact hr
    · rw [add_assign_with_congr floor_div_mul_left hi ha.1]
      exact hr
  · obtain ⟨r, hr, _⟩ := sub_assign_spec ha hb
    have hr' : add_assign_with idiv a ⟨-b.num, b.denom⟩ = some r := by
      rw [← sub_assign_with_eq_add_assign_with]
      exact hr
    refine ⟨r, hr, ?_, ?_⟩
    · rw [sub_assign_with_eq_add_assign_with,
        add_assign_with_congr exact_div_mul_left hi ha.1]
      exact hr'
    · rw [sub_assign_with_eq_add_assign_with,
        add_assign_with_congr floor_div_mul_left hi ha.1]
      exact hr'
  · obtain ⟨r, hr, _⟩ := mul_assign_spec ha hb
    refine ⟨r, hr, ?_, ?_⟩
    · rw [mul_assign_with_congr exact_div_mul_left hi ha.1 hb.1]
      exact hr
    · rw [mul_assign_with_congr floor_div_mul_left hi ha.1 hb.1]
      exact hr
  · refine ⟨⟨-a.num, a.denom⟩, neg_spec ha, ?_, ?_⟩
    · show normalize_with exact_div ⟨-a.num, a.denom⟩ = _
      rw [normalize_with_congr exact_div_mul_left hi]
      exact neg_spec ha
    · show normalize_with floor_div ⟨-a.num, a.denom⟩ = _
      rw [normalize_with_congr floor_div_mul_left hi]
      exact neg_spec ha

theorem C16_non_dividing_operations_total_witness :
    normal_form ⟨1, 6⟩ ∧ normal_form ⟨-5, 12⟩ ∧
    ((∃ r, add_assign ⟨1, 6⟩ ⟨-5, 12⟩ = some r ∧
      add_assign_with exact_div ⟨1, 6⟩ ⟨-5, 12⟩ = some r ∧
      add_assign_with floor_div ⟨1, 6⟩ ⟨-5, 12⟩ = some r) ∧
    (∃ r, sub_assign ⟨1, 6⟩ ⟨-5, 12⟩ = some r ∧
      sub_assign_with exact_div ⟨1, 6⟩ ⟨-5, 12⟩ = some r ∧
      sub_assign_with floor_div ⟨1, 6⟩ ⟨-5, 12⟩ = some r) ∧
    (∃ r, mul_assign ⟨1, 6⟩ ⟨-5, 12⟩ = some r ∧
      mul_assign_with exact_div ⟨1, 6⟩ ⟨-5, 12⟩ = some r ∧
      mul_assign_with floor_div ⟨1, 6⟩ ⟨-5, 12⟩ = some r) ∧
    (∃ r, neg ⟨1, 6⟩ = some r ∧ neg_with exact_div ⟨1, 6⟩ = some r ∧
      neg_with floor_div ⟨1, 6⟩ = some r) ∧
    (add_assign_with idiv ⟨1, 6⟩ ⟨-5, 12⟩ = add_assign ⟨1, 6⟩ ⟨-5, 12⟩ ∧
      sub_assign_with idiv ⟨1, 6⟩ ⟨-5, 12⟩ = sub_assign ⟨1, 6⟩ ⟨-5, 12⟩ ∧
      mul_assign_with idiv ⟨1, 6⟩ ⟨-5, 12⟩ = mul_assign ⟨1, 6⟩ ⟨-5, 12⟩ ∧
      neg_with idiv ⟨1, 6⟩ = neg ⟨1, 6⟩)) :=
  ⟨by decide, by decide,
    C16_non_dividing_operations_total ⟨1, 6⟩ ⟨-5, 12⟩ (by decide) (by decide)⟩

/-- C17: division by the zero value is silent: for every `a` in normal form
and `b = 0/1`, `a / b` completes without a division by zero; when
`a.numerator = 0` the result is `0/1` (whatever `b` is), and otherwise the
result has numerator `sign(a.numerator)`, which is `+1` or `-1`, and
denominator `0`, so it is not in normal form. -/
theorem C17_division_by_zero_value (a : rational_t) (ha : normal_form a) :
    (a.num = 0 → div a ⟨0, 1⟩ = some ⟨0, 1⟩ ∧ ∀ b, div a b = some ⟨0, 1⟩) ∧
    (a.num ≠ 0 → div a ⟨0, 1⟩ = some ⟨Int.sign a.num, 0⟩ ∧
      (Int.sign a.num = 1 ∨ Int.sign a.num = -1) ∧
      ¬ (0 < (⟨Int.sign a.num, 0⟩ : rational_t).denom) ∧
      ¬ normal_form ⟨Int.sign a.num, 0⟩) := by
  constructor
  · intro h0
    have hb : ∀ b, div a b = some ⟨0, 1⟩ := by
      intro b
      rw [← normal_form_zero ha h0]
      simp [div, div_assign, h0]
    exact ⟨hb _, hb⟩
  · intro hn
    refine ⟨?_, sign_eq_one_or_neg_one hn, fun h => absurd h (lt_irrefl 0),
      fun h => absurd h.1 (lt_irrefl 0)⟩
    obtain ⟨n, d⟩ := a
    simp only at hn
    have h0 : |n| ≠ 0 := abs_ne_zero.mpr hn
    simp [div, div_assign, hn, gcd_zero_right_eq_abs, gcd_one_right_eq_one,
      idiv_abs_self hn, idiv_one_right, idiv_zero_left h0]

theorem C17_division_by_zero_value_witness :
    normal_form ⟨-5, 12⟩ ∧
    (((⟨-5, 12⟩ : rational_t).num = 0 →
      div ⟨-5, 12⟩ ⟨0, 1⟩ = some ⟨0, 1⟩ ∧ ∀ b, div ⟨-5, 12⟩ b = some ⟨0, 1⟩) ∧
    ((⟨-5, 12⟩ : rational_t).num ≠ 0 →
      div ⟨-5, 12⟩ ⟨0, 1⟩ = some ⟨Int.sign (⟨-5, 12⟩ : rational_t).num, 0⟩ ∧
      (Int.sign (⟨-5, 12⟩ : rational_t).num = 1 ∨
        Int.sign (⟨-5, 12⟩ : rational_t).num = -1) ∧
      ¬ (0 < (⟨Int.sign (⟨-5, 12⟩ : rational_t).num, 0⟩ : rational_t).denom) ∧
      ¬ normal_form ⟨Int.sign (⟨-5, 12⟩ : rational_t).num, 0⟩)) :=
  ⟨by decide, C17_division_by_zero_value ⟨-5, 12⟩ (by decide)⟩

/-- C18: construction with a zero denominator never fails and never divides by
zero: `rational_t(0, 0)` is exactly `0/1`, the zero value, and for every
`n ≠ 0`, `rational_t(n, 0)` completes with numerator `sign(n)`, which is `+1`
or `-1`, and denominator `0`, so it is not in normal form. -/
theorem C18_zero_denominator_construction (n : Int) (hn : n ≠ 0) :
    of_num_denom 0 0 = some ⟨0, 1⟩ ∧
    of_num_denom 0 0 = some (of_num 0) ∧
    of_num_denom n 0 = some ⟨Int.sign n, 0⟩ ∧
    (Int.sign n = 1 ∨ Int.sign n = -1) ∧
    ¬ (0 < (⟨Int.sign n, 0⟩ : rational_t).denom) ∧
    ¬ normal_form ⟨Int.sign n, 0⟩ := by
  have h0 : |n| ≠ 0 := abs_ne_zero.mpr hn
  refine ⟨by decide, by decide, ?_, sign_eq_one_or_neg_one hn,
    fun h => absurd h (lt_irrefl 0), fun h => absurd h.1 (lt_irrefl 0)⟩
  simp [of_num_denom, rational_t.normalize, hn, gcd_zero_right_eq_abs,
    idiv_abs_self hn, idiv_zero_left h0]

theorem C18_zero_denominator_construction_witness :
    (-7 : Int) ≠ 0 ∧
    (of_num_denom 0 0 = some ⟨0, 1⟩ ∧
    of_num_denom 0 0 = some (of_num 0) ∧
    of_num_denom (-7) 0 = some ⟨Int.sign (-7), 0⟩ ∧
    (Int.sign (-7) = 1 ∨ Int.sign (-7) = -1) ∧
    ¬ (0 < (⟨Int.sign (-7), 0⟩ : rational_t).denom) ∧
    ¬ normal_form ⟨Int.sign (-7), 0⟩) :=
  ⟨by decide, C18_zero_denominator_construction (-7) (by decide)⟩

/-! Self-application of the compound operators -/

/-- C19: the compound operators under self-application, evaluated on values in
normal form.  With `a = 1/3`, `a += a` leaves `1/1` while `a + a` is `2/3`;
with `a = 1/2`, `a -= a` leaves `-1/1` while `a - a` is `0/1`; with `a = 2/1`,
`a /= a` leaves `1/0` while `a / a` is `1/1`.  Only `a *= a` agrees with
`a * a`, for every `a`. -/
theorem C19_self_application_evaluated :
    (normal_form ⟨1, 3⟩ ∧ add_assign_self ⟨1, 3⟩ = some ⟨1, 1⟩ ∧
      add ⟨1, 3⟩ ⟨1, 3⟩ = some ⟨2, 3⟩) ∧
    (normal_form ⟨1, 2⟩ ∧ sub_assign_self ⟨1, 2⟩ = some ⟨-1, 1⟩ ∧
      sub ⟨1, 2⟩ ⟨1, 2⟩ = some ⟨0, 1⟩) ∧
    (normal_form ⟨2, 1⟩ ∧ (⟨2, 1⟩ : rational_t).num ≠ 0 ∧
      div_assign_self ⟨2, 1⟩ = some ⟨1, 0⟩ ∧ div ⟨2, 1⟩ ⟨2, 1⟩ = some ⟨1, 1⟩) ∧
    (∀ a : rational_t, mul_assign_self a = mul a a) := by
  refine ⟨⟨by decide, by decide, by decide⟩, ⟨by decide, by decide, by decide⟩,
    ⟨by decide, by decide, by decide, by decide⟩, fun _ => rfl⟩

/-! Magnitude of the intermediates of multiplication -/

/-- C20: multiplication creates no intermediate larger than its inputs and its
output: for all `a` and `b` in normal form, `a * b` completes with a result
`r`, and every integer computed on the way (the two gcds, the four quotients
and the two products) has absolute value at most
`max(|a.num|, a.denom, |b.num|, b.denom, |r.num|, r.denom)`; and whenever the
fields of `a`, `b` and `r` lie in the signed `w`-bit range (`w ≥ 1`),
`operator *=` evaluated with arithmetic modulo `2^w` returns the same `r`. -/
theorem C20_mul_intermediates_bounded (a b : rational_t)
    (ha : normal_form a) (hb : normal_form b) :
    ∃ r vs, mul_assign a b = some r ∧ mul_assign_values a b = some vs ∧
      (∀ v ∈ vs, |v| ≤ max |a.num| (max a.denom (max |b.num| (max b.denom
        (max |r.num| r.denom))))) ∧
      (∀ w : Nat, 1 ≤ w →
        in_range w a.num → in_range w a.denom → in_range w b.num → in_range w b.denom →
        in_range w r.num → in_range w r.denom →
        mul_assign_wrapped w a b = some r) := by
  obtain ⟨n1, d1⟩ := a
  obtain ⟨n2, d2⟩ := b
  have hd1 : 0 < d1 := ha.1
  have hd2 : 0 < d2 := hb.1
  obtain ⟨g1, n1', d2', hg1e, hg1, e1, e2, _⟩ := gcd_decomp n1 d2 (Or.inr (ne_of_gt hd2))
  obtain ⟨g2, n2', d1', hg2e, hg2, e3, e4, _⟩ := gcd_decomp n2 d1 (Or.inr (ne_of_gt hd1))
  have hg10 : g1 ≠ 0 := ne_of_gt hg1
  have hg20 : g2 ≠ 0 := ne_of_gt hg2
  have hd1' : 0 < d1' := by
    rw [e4] at hd1
    exact pos_of_mul_pos_left hd1 hg2
  have hd2' : 0 < d2' := by
    rw [e2] at hd2
    exact pos_of_mul_pos_left hd2 hg1
  have i1 : idiv n1 g1 = some n1' := by
    rw [e1]
    exact idiv_mul_left hg10 n1'
  have i2 : idiv n2 g2 = some n2' := by
    rw [e3]
    exact idiv_mul_left hg20 n2'
  have i3 : idiv d1 g2 = some d1' := by
    rw [e4]
    exact idiv_mul_left hg20 d1'
  have i4 : idiv d2 g1 = some d2' := by
    rw [e2]
    exact idiv_mul_left hg10 d2'
  have b1 : |g1| ≤ d2 := by
    rw [abs_of_pos hg1, e2]
    exact le_mul_of_pos_factors hg1 hd2'
  have b2 : |g2| ≤ d1 := by
    rw [abs_of_pos hg2, e4]
    exact le_mul_of_pos_factors hg2 hd1'
  have b3 : |n1'| ≤ |n1| := by
    rw [e1]
    exact abs_le_abs_mul_of_pos hg1 n1'
  have b4 : |n2'| ≤ |n2| := by
    rw [e3]
    exact abs_le_abs_mul_of_pos hg2 n2'
  have b5 : |d1'| ≤ d1 := by
    rw [abs_of_pos hd1', e4, mul_comm]
    exact le_mul_of_pos_factors hd1' hg2
  have b6 : |d2'| ≤ d2 := by
    rw [abs_of_pos hd2', e2, mul_comm]
    exact le_mul_of_pos_factors hd2' hg1
  have b8 : |d1' * d2'| ≤ d1' * d2' := le_of_eq (abs_of_pos (mul_pos hd1' hd2'))
  refine ⟨⟨n1' * n2', d1' * d2'⟩, [g1, g2, n1', n2', d1', d2', n1' * n2', d1' * d2'],
    ?_, ?_, ?_, ?_⟩
  · simp [mul_assign, hg1e, hg2e, i1, i2, i3, i4]
  · simp [mul_assign_values, hg1e, hg2e, i1, i2, i3, i4]
  · intro v hv
    simp only [List.mem_cons, List.mem_singleton, List.not_mem_nil, or_false] at hv
    simp only [le_max_iff]
    rcases hv with rfl | rfl | rfl | rfl | rfl | rfl | rfl | rfl
    · exact Or.inr (Or.inr (Or.inr (Or.inl b1)))
    · exact Or.inr (Or.inl b2)
    · exact Or.inl b3
    · exact Or.inr (Or.inr (Or.inl b4))
    · exact Or.inr (Or.inl b5)
    · exact Or.inr (Or.inr (Or.inr (Or.inl b6)))
    · exact Or.inr (Or.inr (Or.inr (Or.inr (Or.inl (le_refl _)))))
    · exact Or.inr (Or.inr (Or.inr (Or.inr (Or.inr b8))))
  · intro w hw r1 r2 r3 r4 r5 r6
    simp only at r1 r2 r3 r4 r5 r6
    have hp : (0 : Int) < (2 : Int) ^ (w - 1) := by positivity
    have rg1 : in_range w g1 := by
      have h := le_mul_of_pos_factors hg1 hd2'
      rw [← e2] at h
      unfold in_range at r4 ⊢
      constructor <;> omega
    have rg2 : in_range w g2 := by
      have h := le_mul_of_pos_factors hg2 hd1'
      rw [← e4] at h
      unfold in_range at r2 ⊢
      constructor <;> omega
    have rn1 : in_range w n1' := by
      rw [e1] at r1
      exact in_range_of_mul hg1 r1
    have rn2 : in_range w n2' := by
      rw [e3] at r3
      exact in_range_of_mul hg2 r3
    have rd1 : in_range w d1' := by
      rw [e4] at r2
      exact in_range_of_mul hg2 r2
    have rd2 : in_range w d2' := by
      rw [e2] at r4
      exact in_range_of_mul hg1 r4
    simp [mul_assign_wrapped, idiv_wrapped, hg1e, hg2e, wrap_eq_self hw rg1,
      wrap_eq_self hw rg2, i1, i2, i3, i4, wrap_eq_self hw rn1, wrap_eq_self hw rn2,
      wrap_eq_self hw rd1, wrap_eq_self hw rd2, wrap_eq_self hw r5, wrap_eq_self hw r6]

theorem C20_mul_intermediates_bounded_witness :
    normal_form ⟨-100, 21⟩ ∧ normal_form ⟨49, 120⟩ ∧
    (∃ r vs, mul_assign ⟨-100, 21⟩ ⟨49, 120⟩ = some r ∧
      mul_assign_values ⟨-100, 21⟩ ⟨49, 120⟩ = some vs ∧
      (∀ v ∈ vs, |v| ≤ max |(⟨-100, 21⟩ : rational_t).num|
        (max (⟨-100, 21⟩ : rational_t).denom (max |(⟨49, 120⟩ : rational_t).num|
        (max (⟨49, 120⟩ : rational_t).denom (max |r.num| r.denom))))) ∧
      (∀ w : Nat, 1 ≤ w →
        in_range w (⟨-100, 21⟩ : rational_t).num →
        in_range w (⟨-100, 21⟩ : rational_t).denom →
        in_range w (⟨49, 120⟩ : rational_t).num →
        in_range w (⟨49, 120⟩ : rational_t).denom →
        in_range w r.num → in_range w r.denom →
        mul_assign_wrapped w ⟨-100, 21⟩ ⟨49, 120⟩ = some r)) :=
  ⟨by decide, by decide,
    C20_mul_intermediates_bounded ⟨-100, 21⟩ ⟨49, 120⟩ (by decide) (by decide)⟩

end ceta
